import Mathlib

/-!
# Verification of the bft-json-crdt core

A shallow embedding of the operation model, LWW register CRDT, list CRDT,
and BFT document root of the bft-json-crdt repository, together with
theorems settling the frozen claims about them.

Conventions of the embedding:
* Machine bytes (`u8`) are naturals; byte arrays (`[u8; 32]`, `[u8; 64]`)
  are lists of naturals (wellformedness `< 256` carried as hypotheses
  where it matters).
* SHA-256 is an external collaborator of the source (`keypair::sha256`);
  every definition that hashes is parametrised by an arbitrary function
  `sha : List Char → OpId` standing for it.  Claims about hashes are
  proved for every such function, or at concretely chosen ones.
* Rust `panic!`/`unwrap` failures are modelled by `Option`/dedicated
  result constructors: a function that can panic returns `none` (or a
  `panic` constructor) there.
* `HashMap`/`HashSet` state is modelled by association lists with
  key-lookup semantics, matching the source's use (insert, contains,
  entry-push, remove).
-/

set_option maxHeartbeats 1000000

namespace BftCrdt

/-- A machine byte (`u8`), as a natural number. -/
abbrev Byte := Nat

/-- `keypair::AuthorID`: a 32-byte Ed25519 public key. -/
abbrev AuthorId := List Byte

/-- `op::OpId`: a 32-byte SHA-256 digest naming an operation. -/
abbrev OpId := List Byte

/-- `keypair::SignedDigest`: a 64-byte Ed25519 signature. -/
abbrev SigDigest := List Byte

/-- `op::SequenceNumber`: a `u64` lamport counter.  (Written `Nat` below
so that linear-arithmetic automation sees through it.) -/
abbrev SequenceNumber := Nat

/-- `op::ROOT_ID`: the all-zero sentinel id. -/
def ROOT_ID : OpId := List.replicate 32 0

/-- `keypair::make_author`: an author id with the given first byte and zeros after. -/
def make_author (n : Byte) : AuthorId := n :: List.replicate 31 0

/-- Rust's derived `Ord` on `[u8; N]`: lexicographic, elementwise.  On the
equal-length byte lists of this development this is exactly bytewise
lexicographic comparison. -/
def bytesLt : List Byte → List Byte → Bool
  | [], [] => false
  | [], _ :: _ => true
  | _ :: _, [] => false
  | a :: as, b :: bs => if a < b then true else if b < a then false else bytesLt as bs

/-- `op::PathSegment`. -/
inductive PathSegment where
  | Field : String → PathSegment
  | Index : OpId → PathSegment
deriving DecidableEq

/-- `json_crdt::Value`, the JSON value union.  The source stores numbers as
`f64`; floating point is outside the embedding, so the payload of `Number`
is an abstract rational stand-in (no claim computes with numbers). -/
inductive Value where
  | Null : Value
  | Bool : Bool → Value
  | Number : Rat → Value
  | String : String → Value
  | Array : List Value → Value
  | Object : List (String × Value) → Value

/-- `json_crdt::OpState`, the return-code taxonomy. -/
inductive OpState where
  | Ok
  | ErrApplyOnPrimitive
  | ErrApplyOnStruct
  | ErrMismatchedType
  | ErrDigestMismatch
  | ErrHashMismatch
  | ErrPathMismatch
  | ErrListApplyToEmpty
  | MissingCausalDependencies
deriving DecidableEq

/-- `op::Op<T>` at `T = Value` (the wire form every apply path consumes). -/
structure Op where
  origin : OpId
  author : AuthorId
  seq : Nat
  content : Option Value
  path : List PathSegment
  is_deleted : Bool
  id : OpId

/-- Little-endian base-10 digits, by structural recursion on a fuel
argument so that closed terms reduce in the kernel. -/
def natDigitsGo : Nat → Nat → List Nat
  | 0, _ => []
  | _ + 1, 0 => []
  | fuel + 1, n + 1 => (n + 1) % 10 :: natDigitsGo fuel ((n + 1) / 10)

/-- Little-endian base-10 digits of a natural. -/
def natDigits (n : Nat) : List Nat := natDigitsGo n n

/-- Decimal digit characters of a natural, as Rust's `Debug` for integers
prints them (`0` prints as `"0"`). -/
def natChars (n : Nat) : List Char :=
  if n = 0 then ['0'] else ((natDigits n).map Nat.digitChar).reverse

/-- Join characters-lists with a separator, as `Vec::join` does. -/
def sepJoin (sep : List Char) : List (List Char) → List Char
  | [] => []
  | [x] => x
  | x :: y :: xs => x ++ sep ++ sepJoin sep (y :: xs)

/-- Rust `Debug` output of a byte array: `[b0, b1, ..., bN]`. -/
def debugBytes (bs : List Byte) : List Char :=
  '[' :: (sepJoin [',', ' '] (bs.map natChars) ++ [']'])

/-- One byte as two lowercase hex characters (`format!("{byte:02x}")`). -/
def hexByte (b : Byte) : List Char := [Nat.digitChar (b / 16), Nat.digitChar (b % 16)]

/-- `op::print_hex`: a byte array as a hex string. -/
def print_hex (bs : List Byte) : List Char := (bs.map hexByte).flatten

/-- The characters a path segment contributes to `op::print_path`:
a field's name verbatim, or the first six hex characters of an index id. -/
def segChars : PathSegment → List Char
  | .Field s => s.data
  | .Index i => (print_hex i).take 6

/-- `op::print_path`: segments joined with `"."`. -/
def print_path (path : List PathSegment) : List Char :=
  sepJoin ['.'] (path.map segChars)

/-- `op::ensure_subpath`: `our_path` must not be longer than `op_path` and
must agree with it elementwise on its own length. -/
def ensure_subpath (ours theirs : List PathSegment) : Bool :=
  decide (ours.length ≤ theirs.length) && decide (theirs.take ours.length = ours)

/-- `op::join_path`. -/
def join_path (path : List PathSegment) (segment : PathSegment) : List PathSegment :=
  path ++ [segment]

/-- Rust `Debug` of a `bool`. -/
def boolChars (b : Bool) : List Char := if b then "true".data else "false".data

/-- Debug characters of an integer (for the `Number` stand-in payload). -/
def intChars : Int → List Char
  | .ofNat n => natChars n
  | .negSucc n => '-' :: natChars (n + 1)

mutual

/-- A deterministic stand-in for Rust's `Debug` of a `Value` (the
`Hashable` blanket impl formats content with `{:?}`).  Object entries are
printed in stored order; the source's `HashMap` ordering is unspecified,
which no claim depends on. -/
def valueDebug : Value → List Char
  | .Null => "Null".data
  | .Bool b => "Bool(".data ++ boolChars b ++ [')']
  | .Number q => "Number(".data ++ intChars q.num ++ ['/'] ++ natChars q.den ++ [')']
  | .String s => "String(\"".data ++ s.data ++ "\")".data
  | .Array vs => "Array([".data ++ valueDebugList vs ++ "])".data
  | .Object kvs => "Object(\x7b".data ++ valueDebugObj kvs ++ "\x7d)".data

/-- Array elements of a `Value`, comma-space separated. -/
def valueDebugList : List Value → List Char
  | [] => []
  | [v] => valueDebug v
  | v :: w :: vs => valueDebug v ++ [',', ' '] ++ valueDebugList (w :: vs)

/-- Object entries of a `Value`, comma-space separated. -/
def valueDebugObj : List (String × Value) → List Char
  | [] => []
  | [kv] => ['"'] ++ kv.1.data ++ "\": ".data ++ valueDebug kv.2
  | kv :: kw :: kvs =>
      ['"'] ++ kv.1.data ++ "\": ".data ++ valueDebug kv.2 ++ [',', ' '] ++
        valueDebugObj (kw :: kvs)

end

/-- The canonical pre-image `Op::hash_to_id` feeds to SHA-256:
`"{origin:?},{author:?},{seq:?},{is_deleted:?},{content_str}"`
where `content_str` is the `Debug` of the content, or `""` when absent.
The id hash binds origin, author, seq, is_deleted and content — not path. -/
def Op.hashPreimage (o : Op) : List Char :=
  debugBytes o.origin ++ [','] ++ debugBytes o.author ++ [','] ++
    natChars o.seq ++ [','] ++ boolChars o.is_deleted ++ [','] ++
    (match o.content with | some c => valueDebug c | none => [])

/-- `Op::hash_to_id`, parametrised by the external SHA-256. -/
def Op.hash_to_id (sha : List Char → OpId) (o : Op) : OpId :=
  sha o.hashPreimage

/-- `Op::is_valid_hash`: rejects an op whose content is absent although it
is not a delete, then compares the recomputed hash with the stored id. -/
def Op.is_valid_hash (sha : List Char → OpId) (o : Op) : Bool :=
  if o.content.isNone && !o.is_deleted then false
  else decide (o.hash_to_id sha = o.id)

/-- `Op::new`: builds the record with a zero id, then stores the hash of
its canonical fields as the id. -/
def Op.new (sha : List Char → OpId) (origin : OpId) (author : AuthorId)
    (seq : Nat) (is_deleted : Bool) (content : Option Value)
    (path : List PathSegment) : Op :=
  let op : Op := { origin, author, seq, is_deleted, content, path, id := ROOT_ID }
  { op with id := op.hash_to_id sha }

/-- `Op::make_root`: the sentinel root op. -/
def Op.make_root : Op :=
  { origin := ROOT_ID, id := ROOT_ID, author := List.replicate 32 0, seq := 0
    is_deleted := false, content := none, path := [] }

/-! ## The LWW register CRDT (`lww_crdt.rs`) -/

/-- `lww_crdt::LwwRegisterCrdt` at content type `Value` (the `op.into()`
conversion in `apply` is the identity at `T = Value`). -/
structure LwwRegisterCrdt where
  our_id : AuthorId
  path : List PathSegment
  value : Op
  our_seq : Nat

/-- `LwwRegisterCrdt::new`. -/
def LwwRegisterCrdt.new (id : AuthorId) (path : List PathSegment) : LwwRegisterCrdt :=
  { our_id := id, path := path, value := Op.make_root, our_seq := 0 }

/-- `LwwRegisterCrdt::apply`: after hash validation, keep the incoming op
when its seq is greater, or on an equal seq when its author is lower;
the register's id never changes; the bookkeeping seq becomes the max. -/
def LwwRegisterCrdt.apply (sha : List Char → OpId) (s : LwwRegisterCrdt) (op : Op) :
    OpState × LwwRegisterCrdt :=
  if !op.is_valid_hash sha then (.ErrHashMismatch, s)
  else
    let seq := op.seq
    let s' :=
      if s.our_seq < seq then
        { s with value := { op with id := s.value.id } }
      else if seq = s.our_seq then
        if bytesLt op.author s.value.author then
          { s with value := { op with id := s.value.id } }
        else s
      else s
    (.Ok, { s' with our_seq := max s'.our_seq seq })

/-- `LwwRegisterCrdt::set`: build the op against the current value's id
with the next seq, extend its path with its own id, apply locally, return it. -/
def LwwRegisterCrdt.set (sha : List Char → OpId) (s : LwwRegisterCrdt) (content : Value) :
    Op × LwwRegisterCrdt :=
  let op0 := Op.new sha s.value.id s.our_id (s.our_seq + 1) false (some content) s.path
  let op := { op0 with path := join_path s.path (.Index op0.id) }
  (op, (s.apply sha op).2)

/-- `LwwRegisterCrdt::view`. -/
def LwwRegisterCrdt.view (s : LwwRegisterCrdt) : Option Value :=
  s.value.content

/-! ## The list CRDT (`list_crdt.rs`) -/

/-- `ListCrdt::find_idx`: position of the first op with the given id. -/
def findIdxOp (ops : List Op) (id : OpId) : Option Nat :=
  match ops with
  | [] => none
  | o :: rest => if o.id = id then some 0 else (findIdxOp rest id).map (· + 1)

/-- Outcome of the integration scan loop: Rust panics when an existing
op's origin is absent (`unwrap`), returns early on a duplicate id, or
determines the insertion position. -/
inductive ScanRes where
  | panic
  | dup
  | insertAt (i : Nat)
deriving DecidableEq

/-- The scan loop of `ListCrdt::integrate`, walking the suffix of `ops`
from absolute position `i`; `p` is the new op's parent index.  For each
existing op: look up its parent index (panicking if missing), stop on a
duplicate id, break when the new op's parent is strictly to the right,
or on an equal parent when the new op wins the `(seq, author)` tie. -/
def scanGo (ops : List Op) (n : Op) (p : Nat) : List Op → Nat → ScanRes
  | [], i => .insertAt i
  | e :: rest, i =>
    match findIdxOp ops e.origin with
    | none => .panic
    | some q =>
      if e.id = n.id then .dup
      else if q < p then .insertAt i
      else if q = p then
        if e.seq < n.seq then .insertAt i
        else if e.seq = n.seq && bytesLt e.author n.author then .insertAt i
        else scanGo ops n p rest (i + 1)
      else scanGo ops n p rest (i + 1)

/-- The scan of `ListCrdt::integrate`, starting right after the parent. -/
def scan (ops : List Op) (n : Op) (p : Nat) : ScanRes :=
  scanGo ops n p (ops.drop (p + 1)) (p + 1)

/-- Set the tombstone flag of the op at the given position. -/
def markAt : List Op → Nat → List Op
  | [], _ => []
  | o :: rest, 0 => { o with is_deleted := true } :: rest
  | o :: rest, n + 1 => o :: markAt rest n

/-- A `HashMap<K, Vec<A>>` as an association list. -/
abbrev AList (κ α : Type) := List (κ × List α)

/-- `map.entry(k).or_default().push(x)`. -/
def qPush {κ α : Type} [DecidableEq κ] (q : AList κ α) (k : κ) (x : α) : AList κ α :=
  match q with
  | [] => [(k, [x])]
  | e :: rest => if e.1 = k then (e.1, e.2 ++ [x]) :: rest else e :: qPush rest k x

/-- `map.remove(&k)`: the stored list, and the map without the key. -/
def qPop {κ α : Type} [DecidableEq κ] (q : AList κ α) (k : κ) :
    Option (List α) × AList κ α :=
  match q with
  | [] => (none, [])
  | e :: rest =>
      if e.1 = k then (some e.2, rest)
      else
        let (found, rest') := qPop rest k
        (found, e :: rest')

/-- Total number of entries parked in such a map. -/
def totalQ {κ α : Type} (q : AList κ α) : Nat := (q.map (·.2.length)).sum

/-- The `message_q: HashMap<OpId, Vec<Op>>` of the list CRDT. -/
abbrev MsgQ := AList OpId Op

/-- `lww_crdt::LwwRegisterCrdt`-style state for `list_crdt::ListCrdt` at
content type `Value`. -/
structure ListCrdt where
  our_id : AuthorId
  path : List PathSegment
  ops : List Op
  message_q : MsgQ
  our_seq : Nat

/-- `ListCrdt::new`: starts with the sentinel root op. -/
def ListCrdt.new (id : AuthorId) (path : List PathSegment) : ListCrdt :=
  { our_id := id, path := path, ops := [Op.make_root], message_q := [], our_seq := 0 }

theorem qPush_totalQ {κ α : Type} [DecidableEq κ] (q : AList κ α) (k : κ) (x : α) :
    totalQ (qPush q k x) = totalQ q + 1 := by
  induction q with
  | nil => simp [qPush, totalQ]
  | cons e rest ih =>
      by_cases h : e.1 = k <;> simp [qPush, h, totalQ] at ih ⊢ <;> omega

theorem qPop_totalQ {κ α : Type} [DecidableEq κ] (q : AList κ α) (k : κ) :
    totalQ (qPop q k).2 + ((qPop q k).1.getD []).length = totalQ q := by
  induction q with
  | nil => simp [qPop, totalQ]
  | cons e rest ih =>
      by_cases h : e.1 = k <;> simp [qPop, h, totalQ] at ih ⊢ <;> omega

/-- The worklist form of `ListCrdt::integrate`'s recursion: process each
op in order; parked ops go to the queue keyed by their origin, deletes
mark their target, duplicates are dropped, and an insertion releases the
ops queued under the new id, processing them (depth-first) before the
rest of the worklist.  `none` models the `unwrap` panic inside the scan. -/
def integrateW (s : ListCrdt) (wl : List Op) : Option ListCrdt :=
  match wl with
  | [] => some s
  | n :: rest =>
    match findIdxOp s.ops n.origin with
    | none => integrateW { s with message_q := qPush s.message_q n.origin n } rest
    | some p =>
      if n.is_deleted then
        integrateW { s with ops := markAt s.ops p } rest
      else
        match scan s.ops n p with
        | .panic => none
        | .dup => integrateW s rest
        | .insertAt i =>
          let popped := qPop s.message_q n.id
          integrateW
            { s with ops := s.ops.insertIdx i n, message_q := popped.2,
                     our_seq := max s.our_seq n.seq }
            ((popped.1.getD []) ++ rest)
termination_by (totalQ s.message_q + wl.length, wl.length)
decreasing_by
  all_goals simp only [Prod.lex_def, qPush_totalQ, List.length_cons, List.length_append]
  · omega
  · omega
  · omega
  · have h := qPop_totalQ s.message_q o.id
    omega

/-- The `OpState` returned by `ListCrdt::integrate` for the op itself:
parked ops report missing causal dependencies, all other non-panic
outcomes report `Ok`. -/
def integrateStatus (s : ListCrdt) (n : Op) : OpState :=
  match findIdxOp s.ops n.origin with
  | none => .MissingCausalDependencies
  | some _ => .Ok

/-- `ListCrdt::integrate` of a single op (with its recursive releases). -/
def ListCrdt.integrate (s : ListCrdt) (n : Op) : Option (OpState × ListCrdt) :=
  (integrateW s [n]).map (fun s' => (integrateStatus s n, s'))

/-- `ListCrdt::apply`: hash validation, subpath check, forwarding to a
nested CRDT when the path goes deeper (at content type `Value` the nested
node is a primitive whose `apply` is the `ErrApplyOnPrimitive` stub), and
otherwise integration.  The `op.path.len() - 1 > self.path.len()` test is
on `usize`: an empty op path underflows and takes the navigation branch. -/
def ListCrdt.apply (sha : List Char → OpId) (s : ListCrdt) (op : Op) :
    Option (OpState × ListCrdt) :=
  if !op.is_valid_hash sha then some (.ErrHashMismatch, s)
  else if !ensure_subpath s.path op.path then some (.ErrPathMismatch, s)
  else if op.path.length = 0 || s.path.length + 1 < op.path.length then
    match op.path[s.path.length]? with
    | some (.Index op_id) =>
      match findIdxOp s.ops op_id with
      | some idx =>
        match s.ops[idx]? with
        | some target =>
          if target.content.isNone then some (.ErrListApplyToEmpty, s)
          else some (.ErrApplyOnPrimitive, s)
        | none => some (.ErrListApplyToEmpty, s)
      | none => some (.ErrPathMismatch, s)
    | _ => some (.ErrPathMismatch, s)
  else s.integrate op

/-- `ListCrdt::insert`: build the op anchored at `after` with the next
seq, extend its path with its own id, apply locally, return it. -/
def ListCrdt.insert (sha : List Char → OpId) (s : ListCrdt) (after : OpId) (content : Value) :
    Op × Option ListCrdt :=
  let op0 := Op.new sha after s.our_id (s.our_seq + 1) false (some content) s.path
  let op := { op0 with path := join_path s.path (.Index op0.id) }
  (op, (s.apply sha op).map (·.2))

/-- `ListCrdt::delete`: a tombstone op targeting `id`, applied locally. -/
def ListCrdt.delete (sha : List Char → OpId) (s : ListCrdt) (id : OpId) :
    Op × Option ListCrdt :=
  let op := Op.new sha id s.our_id (s.our_seq + 1) true none
    (join_path s.path (.Index id))
  (op, (s.apply sha op).map (·.2))

/-- `ListCrdt::view`: contents of ops that are neither deleted nor empty. -/
def ListCrdt.view (s : ListCrdt) : List Value :=
  (s.ops.filter (fun o => !o.is_deleted && o.content.isSome)).filterMap (·.content)

/-! ## The document root (`json_crdt.rs`) -/

/-- `json_crdt::SignedOp`: the signed envelope. -/
structure SignedOp where
  author : AuthorId
  signed_digest : SigDigest
  inner : Op
  depends_on : List SigDigest

/-- The pre-image string `SignedOp::digest` feeds to SHA-256:
`"{id:?},{path_string},{dependency_string}"` where `path_string` is
`print_path` of the inner path and `dependency_string` joins the hex of
each dependency with the empty separator.  The envelope digest binds the
inner op id, the printed path and the dependency list. -/
def SignedOp.digestPreimage (e : SignedOp) : List Char :=
  debugBytes e.inner.id ++ [','] ++ print_path e.inner.path ++ [','] ++
    (e.depends_on.map print_hex).flatten

/-- `json_crdt::BaseCRDT<T>`: the document root over a doc of type `D`.
The doc node (`T: CRDTNode`) is an abstract state with an apply function,
supplied as a parameter wherever the root applies envelopes. -/
structure BaseCrdt (D : Type) where
  id : AuthorId
  doc : D
  received : List SigDigest
  message_q : AList SigDigest SignedOp

/-- `HashSet::insert` on the received set. -/
def recInsert (received : List SigDigest) (d : SigDigest) : List SigDigest :=
  if d ∈ received then received else d :: received

/-- The first dependency digest missing from the received set (the loop in
`BaseCRDT::apply` parks the envelope on the first one it finds). -/
def firstMissing (deps : List SigDigest) (received : List SigDigest) : Option SigDigest :=
  deps.find? (fun d => !(decide (d ∈ received)))

/-- The worklist form of `BaseCRDT::apply`'s recursion (dependent
envelopes released from the pending queue re-enter `apply`, their return
codes being dropped).  `verify` stands for `SignedOp::is_valid_digest`
(Ed25519 signature verification, an external collaborator) and `applyD`
for the doc node's `apply`. -/
def applyBaseW {D : Type} (verify : SignedOp → Bool) (applyD : D → Op → OpState × D)
    (s : BaseCrdt D) (wl : List SignedOp) : BaseCrdt D :=
  match wl with
    | [] => s
    | e :: rest =>
      if !verify e then applyBaseW verify applyD s rest
      else
        match firstMissing e.depends_on s.received with
        | some origin =>
            applyBaseW verify applyD
              { s with message_q := qPush s.message_q origin e } rest
        | none =>
            let doc' := (applyD s.doc e.inner).2
            let popped := qPop s.message_q e.signed_digest
            applyBaseW verify applyD
              { s with doc := doc', received := recInsert s.received e.signed_digest,
                       message_q := popped.2 }
              ((popped.1.getD []) ++ rest)
termination_by (totalQ s.message_q + wl.length, wl.length)
decreasing_by
  all_goals simp only [Prod.lex_def, qPush_totalQ, List.length_cons, List.length_append]
  · omega
  · omega
  · have h := qPop_totalQ s.message_q e.signed_digest
    omega

/-- The `OpState` `BaseCRDT::apply` returns for the envelope itself:
digest failure, the first missing dependency, or the doc's status. -/
def baseApplyStatus {D : Type} (verify : SignedOp → Bool)
    (applyD : D → Op → OpState × D) (s : BaseCrdt D) (e : SignedOp) : OpState :=
  if !verify e then .ErrDigestMismatch
  else
    match firstMissing e.depends_on s.received with
    | some _ => .MissingCausalDependencies
    | none => (applyD s.doc e.inner).1

/-- `BaseCRDT::apply`: status of the envelope, and the state after it and
all recursively released dependents have been processed. -/
def BaseCrdt.apply {D : Type} (verify : SignedOp → Bool)
    (applyD : D → Op → OpState × D) (s : BaseCrdt D) (e : SignedOp) :
    OpState × BaseCrdt D :=
  (baseApplyStatus verify applyD s e, applyBaseW verify applyD s [e])

/-! ## The derived record `node_from` (`bft-crdt-derive/src/lib.rs`)

The derive macro generates, for a struct with named fields, a `node_from`
that destructures a JSON object with `obj.remove(field).unwrap()`.  We
model the generated code for the representative two-field record
`Player { x, y : LwwRegisterCrdt }` of the source's tests. -/

/-- Outcome of running generated code that may panic. -/
inductive DeriveResult (α : Type) where
  | ok (a : α)
  | err (msg : List Char)
  | panicked

/-- `HashMap::remove` on a JSON object: the value stored at the key, and
the object without it. -/
def objRemove (kvs : List (String × Value)) (k : String) :
    Option Value × List (String × Value) :=
  match kvs with
  | [] => (none, [])
  | e :: rest =>
      if e.1 = k then (some e.2, rest)
      else
        let (found, rest') := objRemove rest k
        (found, e :: rest')

/-- A record with fields `x` and `y` as generated by `add_crdt_fields` +
`derive(CrdtNode)` (each field a register node). -/
structure PlayerRec where
  path : List PathSegment
  id : AuthorId
  x : LwwRegisterCrdt
  y : LwwRegisterCrdt

/-- `LWWRegisterCRDT::node_from`: create the register at the path and
`set` the value into it; always succeeds. -/
def lwwNodeFrom (sha : List Char → OpId) (value : Value) (id : AuthorId)
    (path : List PathSegment) : LwwRegisterCrdt :=
  ((LwwRegisterCrdt.new id path).set sha value).2

/-- The generated `PlayerRec::node_from`: a non-object is rejected with
`Err`; an object has each declared field removed and converted, and the
generated `unwrap()` panics when a field is missing. -/
def PlayerRec.node_from (sha : List Char → OpId) (value : Value) (id : AuthorId)
    (path : List PathSegment) : DeriveResult PlayerRec :=
  match value with
  | .Object obj =>
      match objRemove obj "x" with
      | (none, _) => .panicked
      | (some vx, obj') =>
          match objRemove obj' "y" with
          | (none, _) => .panicked
          | (some vy, _) =>
              .ok
                { path := path, id := id
                  x := lwwNodeFrom sha vx id (join_path path (.Field "x"))
                  y := lwwNodeFrom sha vy id (join_path path (.Field "y")) }
  | _ => .err ("failed to convert value -> Player".data)

/-! ## Helper lemmas -/

theorem bytesLt_asymm {a b : List Byte} (h : bytesLt a b = true) : bytesLt b a = false := by
  induction a generalizing b with
  | nil => cases b <;> simp [bytesLt]
  | cons x as ih =>
      cases b with
      | nil => simp [bytesLt] at h
      | cons y bs =>
          simp only [bytesLt] at h ⊢
          by_cases hxy : x < y
          · have hyx : ¬ y < x := Nat.lt_asymm hxy
            simp [hxy, hyx]
          · by_cases hyx : y < x
            · simp [hxy, hyx] at h
            · simp [hxy, hyx] at h ⊢
              exact ih h

/-- The id hash binds only canonical fields: changing the path (or the id
slot itself) leaves the pre-image unchanged. -/
theorem hashPreimage_ignores_path_id (o : Op) (p : List PathSegment) (i : OpId) :
    Op.hashPreimage { o with path := p, id := i } = o.hashPreimage := rfl

/-- An op built by `Op::new` with some content, then re-pathed (as `set`
and `insert` do), passes `is_valid_hash` under the same hash function. -/
theorem repathed_new_valid (sha : List Char → OpId) (origin : OpId) (author : AuthorId)
    (seq : Nat) (c : Value) (path p' : List PathSegment) :
    ({ Op.new sha origin author seq false (some c) path with path := p' }).is_valid_hash sha
      = true := by
  simp [Op.is_valid_hash, Op.new, Op.hash_to_id, Op.hashPreimage]

/-- A delete op built by `Op::new` passes `is_valid_hash`. -/
theorem delete_new_valid (sha : List Char → OpId) (origin : OpId) (author : AuthorId)
    (seq : Nat) (path : List PathSegment) :
    (Op.new sha origin author seq true none path).is_valid_hash sha = true := by
  simp [Op.is_valid_hash, Op.new, Op.hash_to_id, Op.hashPreimage]

/-- A concrete executable stand-in hash for closed witnesses. -/
def sha0 : List Char → OpId := fun l => [l.length % 256]

/-! ## C5: register tie-break winner -/

/-- The op `set('a')` from a fresh register owned by `A1` (seq 1). -/
def c5op (author : AuthorId) (c : Value) : Op :=
  ((LwwRegisterCrdt.new author []).set sha0 c).1

set_option maxRecDepth 100000 in
/-- C5 counterexample: with `A₂ > A₁` (bytewise lexicographic), applying
`set('a')` from `A₁` and `set('b')` from `A₂` (seq 1 each) to an empty
register in either order leaves `view() = Some("a")` — the code keeps the
*lower* author's op, not `Some("b")` as the claim states. -/
theorem c5_counterexample :
    bytesLt (make_author 1) (make_author 2) = true ∧
    (((LwwRegisterCrdt.new (make_author 9) []).apply sha0
        (c5op (make_author 1) (.String "a"))).2.apply sha0
          (c5op (make_author 2) (.String "b"))).2.view = some (.String "a") ∧
    (((LwwRegisterCrdt.new (make_author 9) []).apply sha0
        (c5op (make_author 2) (.String "b"))).2.apply sha0
          (c5op (make_author 1) (.String "a"))).2.view = some (.String "a") ∧
    (Value.String "a" ≠ Value.String "b") := by
  refine ⟨by decide, rfl, rfl, by simp⟩

/-- `apply` on a hash-valid op with a strictly newer seq replaces the
value (keeping the register id) and advances the counter. -/
theorem apply_gtCase (sha : List Char → OpId) (s : LwwRegisterCrdt) (op : Op)
    (hv : op.is_valid_hash sha = true) (h : s.our_seq < op.seq) :
    s.apply sha op =
      (.Ok, { s with value := { op with id := s.value.id }, our_seq := max s.our_seq op.seq }) := by
  simp [LwwRegisterCrdt.apply, hv, h]

/-- `apply` on a hash-valid op with an equal seq and a lower author
replaces the value (keeping the register id). -/
theorem apply_eqLtCase (sha : List Char → OpId) (s : LwwRegisterCrdt) (op : Op)
    (hv : op.is_valid_hash sha = true) (h : op.seq = s.our_seq)
    (ha : bytesLt op.author s.value.author = true) :
    s.apply sha op = (.Ok, { s with value := { op with id := s.value.id } }) := by
  have h1 : ¬ s.our_seq < op.seq := by omega
  have h3 : max s.our_seq op.seq = s.our_seq := by omega
  have : { s with value := { op with id := s.value.id }, our_seq := max s.our_seq op.seq }
      = { s with value := { op with id := s.value.id } } := by
    simp [h3]
  simp [LwwRegisterCrdt.apply, hv, h1, h, ha, h3]

/-- `apply` on a hash-valid op with an equal seq and a not-lower author
leaves the register unchanged. -/
theorem apply_eqGeCase (sha : List Char → OpId) (s : LwwRegisterCrdt) (op : Op)
    (hv : op.is_valid_hash sha = true) (h : op.seq = s.our_seq)
    (ha : bytesLt op.author s.value.author = false) :
    s.apply sha op = (.Ok, s) := by
  have h1 : ¬ s.our_seq < op.seq := by omega
  have h3 : max s.our_seq op.seq = s.our_seq := by omega
  rcases s with ⟨i, p, v, q⟩
  simp_all [LwwRegisterCrdt.apply]

/-- C5 (amended): on an empty register, after applying `set('a')` issued
by author `A₁` with seq 1 and `set('b')` issued by `A₂` with seq 1 — in
either order — `view()` is `Some("a")` if `A₁ < A₂` (bytewise
lexicographic on author ids) and `Some("b")` if `A₂ < A₁`: the
deterministic tie-break keeps the *lower* author id, and both application
orders agree. -/
theorem c5_amended (sha : List Char → OpId) (A1 A2 R : AuthorId) (a b : Op)
    (h : bytesLt A1 A2 = true ∨ bytesLt A2 A1 = true)
    (hva : a.is_valid_hash sha = true) (hvb : b.is_valid_hash sha = true)
    (ha1 : a.author = A1) (ha2 : b.author = A2)
    (hsa : a.seq = 1) (hsb : b.seq = 1)
    (hca : a.content = some (.String "a")) (hcb : b.content = some (.String "b")) :
    let r := LwwRegisterCrdt.new R []
    let winner : Value := if bytesLt A1 A2 then .String "a" else .String "b"
    (((r.apply sha a).2.apply sha b).2.view = some winner ∧
     ((r.apply sha b).2.apply sha a).2.view = some winner) := by
  intro r winner
  have hr : r.our_seq = 0 := rfl
  have e1 := apply_gtCase sha r a hva (by rw [hr, hsa]; omega)
  have e2 := apply_gtCase sha r b hvb (by rw [hr, hsb]; omega)
  rcases h with h | h
  · have h' : bytesLt A2 A1 = false := bytesLt_asymm h
    constructor
    · rw [e1]
      rw [apply_eqGeCase sha _ b hvb (by simp [hsb, hsa, hr]) (by simp [ha1, ha2, h'])]
      simp [LwwRegisterCrdt.view, hca, winner, h]
    · rw [e2]
      rw [apply_eqLtCase sha _ a hva (by simp [hsb, hsa, hr]) (by simp [ha1, ha2, h])]
      simp [LwwRegisterCrdt.view, hca, winner, h]
  · have h' : bytesLt A1 A2 = false := bytesLt_asymm h
    constructor
    · rw [e1]
      rw [apply_eqLtCase sha _ b hvb (by simp [hsb, hsa, hr]) (by simp [ha1, ha2, h])]
      simp [LwwRegisterCrdt.view, hcb, winner, h']
    · rw [e2]
      rw [apply_eqGeCase sha _ a hva (by simp [hsb, hsa, hr]) (by simp [ha1, ha2, h'])]
      simp [LwwRegisterCrdt.view, hcb, winner, h']

/-- C5 amended, witnessed at concrete input. -/
theorem c5_amended_witness :
    ((((LwwRegisterCrdt.new (make_author 9) []).apply sha0
        (c5op (make_author 1) (.String "a"))).2.apply sha0
          (c5op (make_author 2) (.String "b"))).2.view
      = some (if bytesLt (make_author 1) (make_author 2) then .String "a" else .String "b") ∧
     (((LwwRegisterCrdt.new (make_author 9) []).apply sha0
        (c5op (make_author 2) (.String "b"))).2.apply sha0
          (c5op (make_author 1) (.String "a"))).2.view
      = some (if bytesLt (make_author 1) (make_author 2) then .String "a" else .String "b")) :=
  c5_amended sha0 (make_author 1) (make_author 2) (make_author 9)
    (c5op (make_author 1) (.String "a")) (c5op (make_author 2) (.String "b"))
    (Or.inl (by decide)) (repathed_new_valid ..) (repathed_new_valid ..)
    rfl rfl rfl rfl rfl rfl

/-! ## C10: the register accepts every hash-valid op -/

/-- C10: `LwwRegisterCrdt::apply` returns `Ok` for every op passing hash
validation regardless of path or origin, never returns `ErrPathMismatch`
(its only statuses are `Ok` and `ErrHashMismatch`), and an op whose seq is
below the register's counter leaves the whole state (value, author, view)
unchanged while still returning `Ok`. -/
theorem c10_register_accepts_all (sha : List Char → OpId) (s : LwwRegisterCrdt) (op : Op) :
    (op.is_valid_hash sha = true → (s.apply sha op).1 = .Ok) ∧
    ((s.apply sha op).1 = .Ok ∨ (s.apply sha op).1 = .ErrHashMismatch) ∧
    (op.is_valid_hash sha = true → op.seq < s.our_seq → (s.apply sha op).2 = s) := by
  refine ⟨fun hv => by simp [LwwRegisterCrdt.apply, hv], ?_, fun hv hlt => ?_⟩
  · by_cases hv : op.is_valid_hash sha = true
    · left; simp [LwwRegisterCrdt.apply, hv]
    · right; simp [LwwRegisterCrdt.apply, hv]
  · have h1 : ¬ s.our_seq < op.seq := by omega
    have h2 : ¬ op.seq = s.our_seq := by omega
    have h3 : max s.our_seq op.seq = s.our_seq := by omega
    simp [LwwRegisterCrdt.apply, hv, h1, h2, h3]

/-- C10, witnessed at concrete input: a hash-valid op with alien path and
origin and a stale seq is accepted with `Ok` and changes nothing. -/
theorem c10_register_accepts_all_witness :
    ((c5op (make_author 3) (.String "z")).is_valid_hash sha0 = true →
      (((((LwwRegisterCrdt.new (make_author 9) []).apply sha0
          (c5op (make_author 1) (.String "a"))).2.apply sha0
            (c5op (make_author 2) (.String "b"))).2).apply sha0
              (c5op (make_author 3) (.String "z"))).1 = .Ok) ∧
    ((((((LwwRegisterCrdt.new (make_author 9) []).apply sha0
          (c5op (make_author 1) (.String "a"))).2.apply sha0
            (c5op (make_author 2) (.String "b"))).2).apply sha0
              (c5op (make_author 3) (.String "z"))).1 = .Ok ∨
     (((((LwwRegisterCrdt.new (make_author 9) []).apply sha0
          (c5op (make_author 1) (.String "a"))).2.apply sha0
            (c5op (make_author 2) (.String "b"))).2).apply sha0
              (c5op (make_author 3) (.String "z"))).1 = .ErrHashMismatch) ∧
    ((c5op (make_author 3) (.String "z")).is_valid_hash sha0 = true →
      (c5op (make_author 3) (.String "z")).seq <
        ((((LwwRegisterCrdt.new (make_author 9) []).apply sha0
          (c5op (make_author 1) (.String "a"))).2.apply sha0
            (c5op (make_author 2) (.String "b"))).2).our_seq →
      (((((LwwRegisterCrdt.new (make_author 9) []).apply sha0
          (c5op (make_author 1) (.String "a"))).2.apply sha0
            (c5op (make_author 2) (.String "b"))).2).apply sha0
              (c5op (make_author 3) (.String "z"))).2 =
        ((((LwwRegisterCrdt.new (make_author 9) []).apply sha0
          (c5op (make_author 1) (.String "a"))).2.apply sha0
            (c5op (make_author 2) (.String "b"))).2)) :=
  c10_register_accepts_all sha0
    ((((LwwRegisterCrdt.new (make_author 9) []).apply sha0
        (c5op (make_author 1) (.String "a"))).2.apply sha0
          (c5op (make_author 2) (.String "b"))).2)
    (c5op (make_author 3) (.String "z"))

/-! ## C6: what `is_valid_hash` actually enforces -/

/-- A hash-valid op that is both content-bearing and tombstoned. -/
def c6op : Op :=
  let o : Op := { origin := ROOT_ID, author := make_author 1, seq := 1,
                  content := some .Null, path := [], is_deleted := true, id := ROOT_ID }
  { o with id := o.hash_to_id sha0 }

set_option maxRecDepth 100000 in
/-- C6 counterexample: an op with content present *and* `is_deleted = true`
whose stored id matches the recomputed hash is accepted by
`is_valid_hash`, so the claimed equivalence with the exactly-one
(content XOR tombstone) invariant fails at this op. -/
theorem c6_counterexample :
    ¬ (c6op.is_valid_hash sha0 = true ↔
        (c6op.hash_to_id sha0 = c6op.id ∧ c6op.content.isSome ≠ c6op.is_deleted)) := by
  decide

/-- C6 (amended): `is_valid_hash` returns `true` iff the recomputed hash
matches the stored id *and* the op is content-bearing or tombstoned (it
rejects only the content-absent non-delete shape; an op with content
present and `is_deleted = true` passes). -/
theorem c6_amended (sha : List Char → OpId) (o : Op) :
    o.is_valid_hash sha = true ↔
      (o.hash_to_id sha = o.id ∧ (o.content.isSome = true ∨ o.is_deleted = true)) := by
  rcases o with ⟨origin, author, seq, content, path, del, id⟩
  cases content <;> cases del <;>
    simp [Op.is_valid_hash]

/-! ## C9: the generated `node_from` panics on missing fields -/

set_option maxRecDepth 100000 in
/-- C9: evaluating the generated `node_from` at the failing input.  A
non-object is rejected with `Err` as the claim states, but a JSON object
missing the declared field `"y"` makes the generated
`obj.remove("y").unwrap()` panic instead of returning `Err`. -/
theorem c9_node_from_eval :
    PlayerRec.node_from sha0 (.Object [("x", .Null)]) (make_author 1) [] = .panicked ∧
    PlayerRec.node_from sha0 .Null (make_author 1) []
      = .err ("failed to convert value -> Player".data) ∧
    (∀ msg : List Char, (DeriveResult.panicked : DeriveResult PlayerRec) ≠ .err msg) := by
  refine ⟨rfl, rfl, fun msg h => by cases h⟩

/-! ## List CRDT structural lemmas -/

theorem ensure_subpath_extend (p : List PathSegment) (seg : PathSegment) :
    ensure_subpath p (p ++ [seg]) = true := by
  simp [ensure_subpath, List.take_left]

/-- An op addressed one level below the list (its path is the list's path
extended by one index segment) that passes hash validation goes straight
to `integrate`. -/
theorem apply_to_integrate (sha : List Char → OpId) (s : ListCrdt) (op : Op) (oid : OpId)
    (hv : op.is_valid_hash sha = true)
    (hp : op.path = join_path s.path (.Index oid)) :
    s.apply sha op = s.integrate op := by
  have h1 : ensure_subpath s.path op.path = true := by
    rw [hp]; exact ensure_subpath_extend ..
  have h2 : op.path.length = s.path.length + 1 := by
    rw [hp]; simp [join_path]
  simp [ListCrdt.apply, hv, h1, h2]

/-- When every op in the array has a known origin and none shares the new
op's id, the scan can neither panic nor stop on a duplicate: it finds an
insertion position. -/
theorem scanGo_not_stuck (ops : List Op) (n : Op) (p : Nat) (l : List Op) (j : Nat)
    (hsub : ∀ o ∈ l, o ∈ ops)
    (horig : ∀ o ∈ ops, (findIdxOp ops o.origin).isSome = true)
    (hfresh : ∀ o ∈ ops, ¬ o.id = n.id) :
    ∃ i, scanGo ops n p l j = .insertAt i := by
  induction l generalizing j with
  | nil => exact ⟨j, rfl⟩
  | cons e rest ih =>
    have he : e ∈ ops := hsub e (by simp)
    obtain ⟨q, hq⟩ := Option.isSome_iff_exists.mp (horig e he)
    have hid : ¬ e.id = n.id := hfresh e he
    have hrec := fun j' => ih j' (fun o ho => hsub o (List.mem_cons_of_mem _ ho))
    by_cases h1 : q < p
    · exact ⟨j, by simp [scanGo, hq, hid, h1]⟩
    · by_cases h2 : q = p
      · by_cases h3 : e.seq < n.seq
        · exact ⟨j, by simp [scanGo, hq, hid, h1, h2, h3]⟩
        · by_cases h4 : (decide (e.seq = n.seq) && bytesLt e.author n.author) = true
          · exact ⟨j, by simp [scanGo, hq, hid, h1, h2, h3, h4]⟩
          · obtain ⟨i, hi⟩ := hrec (j + 1)
            exact ⟨i, by simp [scanGo, hq, hid, h1, h2, h3, h4, hi]⟩
      · obtain ⟨i, hi⟩ := hrec (j + 1)
        exact ⟨i, by simp [scanGo, hq, hid, h1, h2, hi]⟩

/-- `scan` under the same wellformedness conditions. -/
theorem scan_not_stuck (ops : List Op) (n : Op) (p : Nat)
    (horig : ∀ o ∈ ops, (findIdxOp ops o.origin).isSome = true)
    (hfresh : ∀ o ∈ ops, ¬ o.id = n.id) :
    ∃ i, scan ops n p = .insertAt i :=
  scanGo_not_stuck ops n p _ _ (fun o ho => List.drop_subset _ _ ho) horig hfresh

/-- `integrate`/the release worklist never decrease the bookkeeping seq. -/
theorem integrateW_seq_mono (s : ListCrdt) (wl : List Op) :
    ∀ s', integrateW s wl = some s' → s.our_seq ≤ s'.our_seq := by
  induction s, wl using integrateW.induct with
  | case1 s =>
      intro s' h
      simp only [integrateW] at h
      simp_all
  | case2 s n rest hfind ih =>
      intro s' h
      simp only [integrateW, hfind] at h
      exact ih s' h
  | case3 s n rest q hfind hdel ih =>
      intro s' h
      simp only [integrateW, hfind, hdel] at h
      exact ih s' h
  | case4 s n rest q hfind hdel hscan =>
      intro s' h
      simp only [integrateW, hfind, hdel, hscan] at h
      simp at h
  | case5 s n rest q hfind hdel hscan ih =>
      intro s' h
      simp only [integrateW, hfind, hdel, hscan] at h
      simp only [Bool.false_eq_true, if_false] at h
      exact ih s' h
  | case6 s n rest q hfind hdel i hscan popped ih =>
      intro s' h
      simp only [integrateW, hfind, hdel, hscan] at h
      simp only [Bool.false_eq_true, if_false] at h
      have := ih s' h
      simp at this
      omega

/-! ## C8: per-author seq monotonicity -/

/-- The list used in the C8 counterexample: one author inserts "a", then
"b" after it, then deletes both in succession. -/
def c8_l0 : ListCrdt := ListCrdt.new (make_author 1) []

def c8_ins1 : Op × Option ListCrdt := c8_l0.insert sha0 ROOT_ID (.String "a")

def c8_l1 : ListCrdt := (c8_ins1.2).getD c8_l0

def c8_ins2 : Op × Option ListCrdt := c8_l1.insert sha0 c8_ins1.1.id (.String "b")

def c8_l2 : ListCrdt := (c8_ins2.2).getD c8_l0

def c8_del1 : Op × Option ListCrdt := c8_l2.delete sha0 c8_ins1.1.id

def c8_l3 : ListCrdt := (c8_del1.2).getD c8_l0

def c8_del2 : Op × Option ListCrdt := c8_l3.delete sha0 c8_ins2.1.id

set_option maxRecDepth 1000000 in
/-- C8 counterexample: after two inserts (seqs 1 and 2), two successive
local `delete` calls on the same list both produce ops with seq 3 — the
delete path of `integrate` never advances `our_seq`, so locally generated
seqs are not strictly increasing and the two deletes share a seq. -/
theorem c8_counterexample :
    c8_ins1.2 = some c8_l1 ∧ c8_ins2.2 = some c8_l2 ∧ c8_del1.2 = some c8_l3 ∧
    c8_ins1.1.seq = 1 ∧ c8_ins2.1.seq = 2 ∧
    c8_del1.1.seq = 3 ∧ c8_del2.1.seq = 3 := by
  refine ⟨?_, ?_, ?_, rfl, ?_, ?_, ?_⟩ <;>
    simp +decide [c8_ins1, c8_ins2, c8_del1, c8_del2, c8_l0, c8_l1, c8_l2, c8_l3,
      ListCrdt.insert, ListCrdt.delete, ListCrdt.apply, ListCrdt.integrate, integrateW,
      integrateStatus, ListCrdt.new, Op.new, scan, scanGo, findIdxOp, ensure_subpath,
      qPop, markAt, join_path]

/-- C8 (amended): a register `set` returns an op with seq `our_seq + 1`
and advances the counter to it (so consecutive sets strictly increase);
a list `insert` returns an op with seq `our_seq + 1`, and when its anchor
is known, the array is wellformed and the id is fresh, the counter
advances at least to it (so consecutive anchored inserts strictly
increase); but a list `delete` returns an op with seq `our_seq + 1`
while never advancing the counter, so two successive delete calls produce
ops with the *same* seq. -/
theorem c8_amended (sha : List Char → OpId) :
    (∀ (s : LwwRegisterCrdt) (v : Value),
        ((s.set sha v).1).seq = s.our_seq + 1 ∧ ((s.set sha v).2).our_seq = s.our_seq + 1) ∧
    (∀ (s : ListCrdt) (after : OpId) (v : Value),
        ((s.insert sha after v).1).seq = s.our_seq + 1) ∧
    (∀ (s : ListCrdt) (after : OpId) (v : Value) (p : Nat) (s' : ListCrdt),
        findIdxOp s.ops after = some p →
        (∀ o ∈ s.ops, (findIdxOp s.ops o.origin).isSome = true) →
        (∀ o ∈ s.ops, ¬ o.id = ((s.insert sha after v).1).id) →
        (s.insert sha after v).2 = some s' →
        s.our_seq + 1 ≤ s'.our_seq) ∧
    (∀ (s : ListCrdt) (id : OpId),
        ((s.delete sha id).1).seq = s.our_seq + 1 ∧
        ∃ s', (s.delete sha id).2 = some s' ∧ s'.our_seq = s.our_seq) := by
  refine ⟨fun s v => ⟨rfl, ?_⟩, fun s after v => rfl, ?_, fun s id => ⟨rfl, ?_⟩⟩
  · have hv : (((s.set sha v)).1).is_valid_hash sha = true := repathed_new_valid ..
    have h := apply_gtCase sha s ((s.set sha v).1) hv (Nat.lt_succ_self _)
    show ((s.apply sha ((s.set sha v).1)).2).our_seq = s.our_seq + 1
    rw [h]
    show max s.our_seq (s.our_seq + 1) = s.our_seq + 1
    omega
  · intro s after v p s' hp horig hfresh happ
    have hv : ((s.insert sha after v).1).is_valid_hash sha = true := repathed_new_valid ..
    have hpath : ((s.insert sha after v).1).path
        = join_path s.path (.Index ((s.insert sha after v).1).id) := rfl
    have horigin : ((s.insert sha after v).1).origin = after := rfl
    have hdel : ((s.insert sha after v).1).is_deleted = false := rfl
    have happly : s.apply sha ((s.insert sha after v).1) = s.integrate ((s.insert sha after v).1) :=
      apply_to_integrate sha s _ _ hv hpath
    obtain ⟨i, hi⟩ := scan_not_stuck s.ops ((s.insert sha after v).1) p horig hfresh
    have h2 : (s.insert sha after v).2
        = (s.integrate ((s.insert sha after v).1)).map (·.2) := by
      show (s.apply sha ((s.insert sha after v).1)).map (·.2)
          = (s.integrate ((s.insert sha after v).1)).map (·.2)
      rw [happly]
    rw [h2] at happ
    simp only [ListCrdt.integrate] at happ
    rcases hW : integrateW s [(s.insert sha after v).1] with _ | sW
    · simp [hW] at happ
    · simp [hW] at happ
      subst happ
      simp only [integrateW, horigin, hp, hdel, hi] at hW
      simp only [Bool.false_eq_true, if_false] at hW
      have hmono := integrateW_seq_mono _ _ _ hW
      have hseq : ((s.insert sha after v).1).seq = s.our_seq + 1 := rfl
      simp only [hseq] at hmono
      simp at hmono
      omega
  · have hd : (s.delete sha id).1
        = Op.new sha id s.our_id (s.our_seq + 1) true none (join_path s.path (.Index id)) := rfl
    rcases hfind : findIdxOp s.ops id with _ | p
    · refine ⟨{ s with message_q := (qPush s.message_q id
        (Op.new sha id s.our_id (s.our_seq + 1) true none
          (join_path s.path (.Index id)))) }, ?_, rfl⟩
      show ((s.apply sha ((s.delete sha id).1)).map (·.2)) = _
      rw [hd, apply_to_integrate sha s (Op.new sha id s.our_id (s.our_seq + 1) true none
        (join_path s.path (.Index id))) id (delete_new_valid ..) rfl]
      simp only [ListCrdt.integrate, integrateW]
      have ho : (Op.new sha id s.our_id (s.our_seq + 1) true none
          (join_path s.path (.Index id))).origin = id := rfl
      simp [ho, hfind, hd]
    · refine ⟨{ s with ops := markAt s.ops p }, ?_, rfl⟩
      show ((s.apply sha ((s.delete sha id).1)).map (·.2)) = _
      rw [hd, apply_to_integrate sha s (Op.new sha id s.our_id (s.our_seq + 1) true none
        (join_path s.path (.Index id))) id (delete_new_valid ..) rfl]
      simp only [ListCrdt.integrate, integrateW]
      have ho : (Op.new sha id s.our_id (s.our_seq + 1) true none
          (join_path s.path (.Index id))).origin = id := rfl
      have hdel : (Op.new sha id s.our_id (s.our_seq + 1) true none
          (join_path s.path (.Index id))).is_deleted = true := rfl
      simp [ho, hfind, hdel]

set_option maxRecDepth 1000000 in
/-- C8 amended, witnessed at concrete input (the anchored-insert conjunct
instantiated on the one-element list, its hypotheses discharged there). -/
theorem c8_amended_witness :
    findIdxOp c8_l1.ops c8_ins1.1.id = some 1 ∧
    (∀ o ∈ c8_l1.ops, (findIdxOp c8_l1.ops o.origin).isSome = true) ∧
    (∀ o ∈ c8_l1.ops, ¬ o.id = ((c8_l1.insert sha0 c8_ins1.1.id (.String "b")).1).id) ∧
    (c8_l1.insert sha0 c8_ins1.1.id (.String "b")).2 = some c8_l2 ∧
    c8_l1.our_seq + 1 ≤ c8_l2.our_seq := by
  have h1 : findIdxOp c8_l1.ops c8_ins1.1.id = some 1 := by
    simp +decide [c8_l1, c8_ins1, c8_l0, ListCrdt.insert, ListCrdt.apply, ListCrdt.integrate,
      integrateW, integrateStatus, ListCrdt.new, Op.new, scan, scanGo, findIdxOp,
      ensure_subpath, qPop, join_path]
  have h2 : ∀ o ∈ c8_l1.ops, (findIdxOp c8_l1.ops o.origin).isSome = true := by
    simp +decide [c8_l1, c8_ins1, c8_l0, ListCrdt.insert, ListCrdt.apply, ListCrdt.integrate,
      integrateW, integrateStatus, ListCrdt.new, Op.new, scan, scanGo, findIdxOp,
      ensure_subpath, qPop, join_path, Op.make_root]
  have h3 : ∀ o ∈ c8_l1.ops, ¬ o.id = ((c8_l1.insert sha0 c8_ins1.1.id (.String "b")).1).id := by
    simp +decide [c8_l1, c8_ins1, c8_l0, ListCrdt.insert, ListCrdt.apply, ListCrdt.integrate,
      integrateW, integrateStatus, ListCrdt.new, Op.new, Op.hash_to_id, Op.hashPreimage,
      scan, scanGo, findIdxOp, ensure_subpath, qPop, join_path, Op.make_root]
  have h4 : (c8_l1.insert sha0 c8_ins1.1.id (.String "b")).2 = some c8_l2 := by
    have := c8_counterexample.2.1
    simpa [c8_ins2] using this
  exact ⟨h1, h2, h3, h4,
    (c8_amended sha0).2.2.1 c8_l1 c8_ins1.1.id (.String "b") 1 c8_l2 h1 h2 h3 h4⟩

/-! ## C2: what the envelope digest pre-image binds

The pre-image is `"{id:?},{path_string},{dependency_string}"`.  It is
injective in the inner op id and the dependency list, and in the *printed*
path — but `print_path` truncates each `Index` segment to six hex
characters, so two different paths can yield the same pre-image. -/

/-- First occurrences split: if a character is absent from both prefixes,
equality of `a₁ ++ c :: r₁` and `a₂ ++ c :: r₂` forces the parts equal. -/
theorem splitFirst {c : Char} :
    ∀ {a₁ a₂ r₁ r₂ : List Char}, c ∉ a₁ → c ∉ a₂ →
      a₁ ++ c :: r₁ = a₂ ++ c :: r₂ → a₁ = a₂ ∧ r₁ = r₂ := by
  intro a₁
  induction a₁ with
  | nil =>
      intro a₂ r₁ r₂ _ hc2 h
      cases a₂ with
      | nil => simpa using h
      | cons y ys =>
          simp only [List.nil_append, List.cons_append, List.cons.injEq] at h
          exact absurd (h.1 ▸ List.mem_cons_self y ys) hc2
  | cons x xs ih =>
      intro a₂ r₁ r₂ hc1 hc2 h
      cases a₂ with
      | nil =>
          simp only [List.cons_append, List.nil_append, List.cons.injEq] at h
          exact absurd (h.1.symm ▸ List.mem_cons_self x xs) hc1
      | cons y ys =>
          simp only [List.cons_append, List.cons.injEq] at h
          obtain ⟨rfl, h2⟩ := h
          have := ih (fun hm => hc1 (List.mem_cons_of_mem _ hm))
            (fun hm => hc2 (List.mem_cons_of_mem _ hm)) h2
          exact ⟨by rw [this.1], this.2⟩

theorem natDigitsGo_lt (f n : Nat) : ∀ d ∈ natDigitsGo f n, d < 10 := by
  induction f generalizing n with
  | zero => simp [natDigitsGo]
  | succ f ih =>
      cases n with
      | zero => simp [natDigitsGo]
      | succ m =>
          intro d hd
          simp only [natDigitsGo, List.mem_cons] at hd
          rcases hd with rfl | hd
          · omega
          · exact ih _ d hd

theorem natDigitsGo_eq_digits (f n : Nat) (h : n ≤ f) :
    natDigitsGo f n = Nat.digits 10 n := by
  induction f generalizing n with
  | zero =>
      interval_cases n
      simp [natDigitsGo]
  | succ f ih =>
      cases n with
      | zero => simp [natDigitsGo]
      | succ m =>
          rw [natDigitsGo, ih _ (by omega), Nat.digits_def' (by norm_num) (Nat.succ_pos m)]

theorem natDigits_eq_digits (n : Nat) : natDigits n = Nat.digits 10 n :=
  natDigitsGo_eq_digits n n le_rfl

/-- Every character `natChars` emits is a decimal digit character. -/
theorem natChars_mem (n : Nat) : ∀ c ∈ natChars n,
    c ∈ ['0', '1', '2', '3', '4', '5', '6', '7', '8', '9'] := by
  intro c hc
  simp only [natChars] at hc
  split at hc
  · simp only [List.mem_singleton] at hc
    simp [hc]
  · simp only [List.mem_reverse, List.mem_map] at hc
    obtain ⟨d, hd, rfl⟩ := hc
    have : d < 10 := by
      rw [natDigits] at hd
      exact natDigitsGo_lt _ _ d hd
    interval_cases d <;> simp [Nat.digitChar]

theorem natChars_ne_nil (n : Nat) : natChars n ≠ [] := by
  simp only [natChars]
  split
  · simp
  · rename_i h
    intro hcon
    simp only [List.reverse_eq_nil_iff, List.map_eq_nil_iff] at hcon
    rw [natDigits_eq_digits] at hcon
    exact h (Nat.digits_eq_nil_iff_eq_zero.mp hcon)

theorem digitChar_inj {a b : Nat} (ha : a < 16) (hb : b < 16)
    (h : Nat.digitChar a = Nat.digitChar b) : a = b := by
  have key : ∀ x, x < 16 → ∀ y, y < 16 → Nat.digitChar x = Nat.digitChar y → x = y := by
    decide
  exact key a ha b hb h

theorem map_digitChar_inj : ∀ {xs ys : List Nat}, (∀ d ∈ xs, d < 10) → (∀ d ∈ ys, d < 10) →
    xs.map Nat.digitChar = ys.map Nat.digitChar → xs = ys := by
  intro xs
  induction xs with
  | nil => intro ys _ _ h; cases ys <;> simp_all
  | cons x xs ih =>
      intro ys hx hy h
      cases ys with
      | nil => simp at h
      | cons y ys =>
          simp only [List.map_cons, List.cons.injEq] at h
          have hxy := digitChar_inj (by have := hx x (by simp); omega)
            (by have := hy y (by simp); omega) h.1
          have := ih (fun d hd => hx d (by simp [hd])) (fun d hd => hy d (by simp [hd])) h.2
          simp [hxy, this]

theorem natChars_inj {n m : Nat} (h : natChars n = natChars m) : n = m := by
  have hb10 : ∀ (k : Nat), ∀ d ∈ Nat.digits 10 k, d < 10 :=
    fun k d hd => Nat.digits_lt_base (by norm_num) hd
  by_cases hn : n = 0 <;> by_cases hm : m = 0
  · omega
  · exfalso
    simp only [natChars, hn, if_true, if_neg hm] at h
    have h' := congrArg List.reverse h
    simp only [List.reverse_reverse, List.reverse_singleton] at h'
    rw [natDigits_eq_digits] at h'
    have hdig : Nat.digits 10 m = [0] := by
      apply @map_digitChar_inj (Nat.digits 10 m) [0] (hb10 m) (by simp)
      rw [← h']
      rfl
    have := congrArg (Nat.ofDigits 10) hdig
    simp [Nat.ofDigits_digits, Nat.ofDigits] at this
    exact hm this
  · exfalso
    simp only [natChars, hm, if_true, if_neg hn] at h
    have h' := congrArg List.reverse h
    simp only [List.reverse_reverse, List.reverse_singleton] at h'
    rw [natDigits_eq_digits] at h'
    have hdig : Nat.digits 10 n = [0] := by
      apply @map_digitChar_inj (Nat.digits 10 n) [0] (hb10 n) (by simp)
      rw [h']
      rfl
    have := congrArg (Nat.ofDigits 10) hdig
    simp [Nat.ofDigits_digits, Nat.ofDigits] at this
    exact hn this
  · simp only [natChars, if_neg hn, if_neg hm] at h
    have h' := congrArg List.reverse h
    simp only [List.reverse_reverse] at h'
    rw [natDigits_eq_digits, natDigits_eq_digits] at h'
    have := map_digitChar_inj (hb10 n) (hb10 m) h'
    have := congrArg (Nat.ofDigits 10) this
    simpa [Nat.ofDigits_digits] using this

/-- `sepJoin ", "` is injective on equal-length lists of nonempty
comma-free space-free strings. -/
theorem sepJoin_comma_inj :
    ∀ {xs ys : List (List Char)},
      (∀ x ∈ xs, x ≠ [] ∧ ',' ∉ x) → (∀ y ∈ ys, y ≠ [] ∧ ',' ∉ y) →
      xs.length = ys.length →
      sepJoin [',', ' '] xs = sepJoin [',', ' '] ys → xs = ys := by
  intro xs
  induction xs with
  | nil =>
      intro ys _ _ hlen _
      cases ys <;> simp_all
  | cons x xs ih =>
      intro ys hx hy hlen h
      cases ys with
      | nil => simp at hlen
      | cons y ys =>
          cases xs with
          | nil =>
              cases ys with
              | nil => simp_all [sepJoin]
              | cons z zs => simp at hlen
          | cons x2 xs2 =>
              cases ys with
              | nil => simp at hlen
              | cons y2 ys2 =>
                  simp only [sepJoin] at h
                  have hsplit : x ++ ',' :: (' ' :: sepJoin [',', ' '] (x2 :: xs2))
                      = y ++ ',' :: (' ' :: sepJoin [',', ' '] (y2 :: ys2)) := by
                    simpa using h
                  obtain ⟨hxy, htail⟩ := splitFirst (hx x (by simp)).2 (hy y (by simp)).2 hsplit
                  simp only [List.cons.injEq] at htail
                  have := ih (fun a ha => hx a (by simp [ha]))
                    (fun a ha => hy a (by simp [ha])) (by simpa using hlen) htail.2
                  simp [hxy, this]

/-- `debugBytes` splits as interior (no `']'`) plus the closing bracket. -/
theorem debugBytes_split (bs : List Byte) :
    debugBytes bs = ('[' :: sepJoin [',', ' '] (bs.map natChars)) ++ [']'] := by
  simp [debugBytes]

/-- A character of a joined list comes from the separator or a part. -/
theorem sepJoin_mem (sep : List Char) :
    ∀ (xs : List (List Char)) (c : Char), c ∈ sepJoin sep xs →
      c ∈ sep ∨ ∃ x ∈ xs, c ∈ x := by
  intro xs
  induction xs with
  | nil => intro c hc; simp [sepJoin] at hc
  | cons x rest ih =>
      intro c hc
      cases rest with
      | nil =>
          simp only [sepJoin] at hc
          exact Or.inr ⟨x, by simp, hc⟩
      | cons y ys =>
          simp only [sepJoin, List.append_assoc, List.mem_append] at hc
          rcases hc with hc | hc | hc
          · exact Or.inr ⟨x, by simp, hc⟩
          · exact Or.inl hc
          · rcases ih c hc with h | ⟨z, hz, hcz⟩
            · exact Or.inl h
            · exact Or.inr ⟨z, by simp [hz], hcz⟩

theorem debugBytes_interior_no_bracket (bs : List Byte) :
    ']' ∉ ('[' :: sepJoin [',', ' '] (bs.map natChars)) := by
  intro hmem
  simp only [List.mem_cons] at hmem
  rcases hmem with h | h
  · simp at h
  · rcases sepJoin_mem _ _ _ h with h' | ⟨x, hx, hcx⟩
    · simp at h'
    · simp only [List.mem_map] at hx
      obtain ⟨b, _, rfl⟩ := hx
      have := natChars_mem b ']' hcx
      simp at this

theorem debugBytes_inj {xs ys : List Byte} (hlen : xs.length = ys.length)
    (h : debugBytes xs = debugBytes ys) : xs = ys := by
  rw [debugBytes, debugBytes] at h
  simp only [List.cons.injEq, true_and] at h
  have h' : sepJoin [',', ' '] (xs.map natChars) = sepJoin [',', ' '] (ys.map natChars) := by
    have := List.append_inj_left' h (by simp)
    simpa using this
  have := sepJoin_comma_inj
    (fun x hx => by
      simp only [List.mem_map] at hx
      obtain ⟨b, _, rfl⟩ := hx
      refine ⟨natChars_ne_nil b, fun hc => ?_⟩
      have := natChars_mem b ',' hc
      simp at this)
    (fun y hy => by
      simp only [List.mem_map] at hy
      obtain ⟨b, _, rfl⟩ := hy
      refine ⟨natChars_ne_nil b, fun hc => ?_⟩
      have := natChars_mem b ',' hc
      simp at this)
    (by simpa using hlen) h'
  have : ∀ {as bs : List Byte}, as.map natChars = bs.map natChars → as = bs := by
    intro as
    induction as with
    | nil => intro bs h; cases bs <;> simp_all
    | cons a as ih =>
        intro bs h
        cases bs with
        | nil => simp at h
        | cons b bs =>
            simp only [List.map_cons, List.cons.injEq] at h
            exact by simp [natChars_inj h.1, ih h.2]
  exact this ‹_›

theorem digitChar_big (d : Nat) (h : 16 ≤ d) : Nat.digitChar d = '*' := by
  simp only [Nat.digitChar]
  repeat rw [if_neg (by omega)]

theorem digitChar_chars (d : Nat) : Nat.digitChar d ≠ ',' ∧ Nat.digitChar d ≠ ']' := by
  rcases Nat.lt_or_ge d 16 with h | h
  · have key : ∀ x, x < 16 → Nat.digitChar x ≠ ',' ∧ Nat.digitChar x ≠ ']' := by decide
    exact key d h
  · rw [digitChar_big d h]
    exact ⟨by decide, by decide⟩

theorem hexByte_chars (b : Byte) : ∀ c ∈ hexByte b, c ≠ ',' ∧ c ≠ ']' := by
  intro c hc
  simp only [hexByte, List.mem_cons] at hc
  rcases hc with rfl | rfl | h
  · exact digitChar_chars _
  · exact digitChar_chars _
  · simp at h

theorem hexByte_inj {a b : Nat} (ha : a < 256) (hb : b < 256)
    (h : hexByte a = hexByte b) : a = b := by
  simp only [hexByte, List.cons.injEq, and_true] at h
  have h1 := digitChar_inj (by omega : a / 16 < 16) (by omega : b / 16 < 16) h.1
  have h2 := digitChar_inj (by omega : a % 16 < 16) (by omega : b % 16 < 16) h.2
  omega

theorem hexByte_length (b : Byte) : (hexByte b).length = 2 := rfl

/-- Flattening equal-length chunks is injective. -/
theorem flatten_chunks_inj (k : Nat) (hk : 0 < k) :
    ∀ {xs ys : List (List Char)},
      (∀ x ∈ xs, x.length = k) → (∀ y ∈ ys, y.length = k) →
      xs.flatten = ys.flatten → xs = ys := by
  intro xs
  induction xs with
  | nil =>
      intro ys _ hy h
      cases ys with
      | nil => rfl
      | cons y ys =>
          exfalso
          simp only [List.flatten_nil, List.flatten_cons] at h
          have hyk : y.length = k := hy y (by simp)
          rcases List.append_eq_nil.mp h.symm with ⟨rfl, -⟩
          simp at hyk
          omega
  | cons x xs ih =>
      intro ys hx hy h
      cases ys with
      | nil =>
          exfalso
          simp only [List.flatten_nil, List.flatten_cons] at h
          have hxk : x.length = k := hx x (by simp)
          rcases List.append_eq_nil.mp h with ⟨rfl, -⟩
          simp at hxk
          omega
      | cons y ys =>
          simp only [List.flatten_cons] at h
          have hxl : x.length = y.length := by
            rw [hx x (by simp), hy y (by simp)]
          obtain ⟨h1, h2⟩ := List.append_inj h hxl
          have := ih (fun a ha => hx a (by simp [ha])) (fun a ha => hy a (by simp [ha])) h2
          simp [h1, this]

theorem print_hex_length_mul (bs : List Byte) :
    (print_hex bs).length = 2 * bs.length := by
  induction bs with
  | nil => rfl
  | cons b rest ih =>
      have hstep : print_hex (b :: rest) = hexByte b ++ print_hex rest := rfl
      rw [hstep, List.length_append, hexByte_length, ih, List.length_cons]
      ring

theorem print_hex_length {bs : List Byte} (h : bs.length = 64) :
    (print_hex bs).length = 128 := by
  rw [print_hex_length_mul, h]

theorem print_hex_inj {xs ys : List Byte} (hx : ∀ b ∈ xs, b < 256) (hy : ∀ b ∈ ys, b < 256)
    (hlen : xs.length = ys.length) (h : print_hex xs = print_hex ys) : xs = ys := by
  simp only [print_hex] at h
  have := flatten_chunks_inj 2 (by omega)
    (fun l hl => by
      simp only [List.mem_map] at hl
      obtain ⟨b, _, rfl⟩ := hl
      rfl)
    (fun l hl => by
      simp only [List.mem_map] at hl
      obtain ⟨b, _, rfl⟩ := hl
      rfl) h
  clear h hlen
  induction xs generalizing ys with
  | nil => cases ys <;> simp_all
  | cons a as ih =>
      cases ys with
      | nil => simp_all
      | cons b bs =>
          simp only [List.map_cons, List.cons.injEq] at this
          have hab := hexByte_inj (hx a (by simp)) (hy b (by simp)) this.1
          have := ih (fun c hc => hx c (by simp [hc])) (fun c hc => hy c (by simp [hc])) this.2
          simp [hab, this]

theorem print_hex_no_comma (bs : List Byte) : ',' ∉ print_hex bs := by
  intro h
  simp only [print_hex, List.mem_flatten] at h
  obtain ⟨l, hl, hc⟩ := h
  simp only [List.mem_map] at hl
  obtain ⟨b, _, rfl⟩ := hl
  exact (hexByte_chars b ',' hc).1 rfl

theorem depString_no_comma (deps : List SigDigest) :
    ',' ∉ (deps.map print_hex).flatten := by
  intro h
  simp only [List.mem_flatten] at h
  obtain ⟨l, hl, hc⟩ := h
  simp only [List.mem_map] at hl
  obtain ⟨d, _, rfl⟩ := hl
  exact print_hex_no_comma d hc

theorem depString_inj {d1 d2 : List SigDigest}
    (h1 : ∀ d ∈ d1, d.length = 64 ∧ ∀ b ∈ d, b < 256)
    (h2 : ∀ d ∈ d2, d.length = 64 ∧ ∀ b ∈ d, b < 256)
    (h : (d1.map print_hex).flatten = (d2.map print_hex).flatten) : d1 = d2 := by
  have := flatten_chunks_inj 128 (by omega)
    (fun l hl => by
      simp only [List.mem_map] at hl
      obtain ⟨d, hd, rfl⟩ := hl
      exact print_hex_length (h1 d hd).1)
    (fun l hl => by
      simp only [List.mem_map] at hl
      obtain ⟨d, hd, rfl⟩ := hl
      exact print_hex_length (h2 d hd).1) h
  clear h
  induction d1 generalizing d2 with
  | nil => cases d2 <;> simp_all
  | cons a as ih =>
      cases d2 with
      | nil => simp_all
      | cons b bs =>
          simp only [List.map_cons, List.cons.injEq] at this
          have hab := print_hex_inj (h1 a (by simp)).2 (h2 b (by simp)).2
            (by rw [(h1 a (by simp)).1, (h2 b (by simp)).1]) this.1
          have := ih (fun d hd => h1 d (by simp [hd])) (fun d hd => h2 d (by simp [hd])) this.2
          simp [hab, this]

/-- The digest pre-image determines the inner op id, the printed path and
the dependency list (wellformed sizes assumed). -/
theorem digestPreimage_components {e1 e2 : SignedOp}
    (hl1 : e1.inner.id.length = 32) (hl2 : e2.inner.id.length = 32)
    (hd1 : ∀ d ∈ e1.depends_on, d.length = 64 ∧ ∀ b ∈ d, b < 256)
    (hd2 : ∀ d ∈ e2.depends_on, d.length = 64 ∧ ∀ b ∈ d, b < 256)
    (h : e1.digestPreimage = e2.digestPreimage) :
    e1.inner.id = e2.inner.id ∧ print_path e1.inner.path = print_path e2.inner.path ∧
      e1.depends_on = e2.depends_on := by
  have hshape : ∀ (e : SignedOp),
      e.digestPreimage = ('[' :: sepJoin [',', ' '] (e.inner.id.map natChars)) ++
        ']' :: (',' :: (print_path e.inner.path ++
          ',' :: (e.depends_on.map print_hex).flatten)) := by
    intro e
    simp [SignedOp.digestPreimage, debugBytes]
  rw [hshape, hshape] at h
  obtain ⟨hA, hrest⟩ := splitFirst
    (debugBytes_interior_no_bracket e1.inner.id)
    (debugBytes_interior_no_bracket e2.inner.id) h
  have hid : e1.inner.id = e2.inner.id := by
    apply debugBytes_inj (by rw [hl1, hl2])
    rw [debugBytes_split, debugBytes_split, hA]
  simp only [List.cons.injEq, true_and] at hrest
  have hrev := congrArg List.reverse hrest
  simp only [List.reverse_append, List.reverse_cons] at hrev
  have hrev' : (e1.depends_on.map print_hex).flatten.reverse ++
        ',' :: (print_path e1.inner.path).reverse
      = (e2.depends_on.map print_hex).flatten.reverse ++
        ',' :: (print_path e2.inner.path).reverse := by
    simpa [List.append_assoc] using hrev
  obtain ⟨hS, hP⟩ := splitFirst
    (by
      intro hmem
      exact depString_no_comma e1.depends_on (List.mem_reverse.mp hmem))
    (by
      intro hmem
      exact depString_no_comma e2.depends_on (List.mem_reverse.mp hmem))
    hrev'
  refine ⟨hid, ?_, ?_⟩
  · have := congrArg List.reverse hP
    simpa using this
  · have := congrArg List.reverse hS
    simp only [List.reverse_reverse] at this
    exact depString_inj hd1 hd2 this

/-- C2 (amended): the digest pre-image is injective in the inner op id,
the dependency list, and the *printed* path: two wellformed SignedOps
that differ in the inner op id, or in `print_path` of their paths, or in
their `depends_on` lists, have different pre-image strings.  (The path
itself is *not* bound injectively: `print_path` truncates index segments
to six hex characters — see the counterexample.) -/
theorem c2_amended (e1 e2 : SignedOp)
    (hl1 : e1.inner.id.length = 32) (hl2 : e2.inner.id.length = 32)
    (hd1 : ∀ d ∈ e1.depends_on, d.length = 64 ∧ ∀ b ∈ d, b < 256)
    (hd2 : ∀ d ∈ e2.depends_on, d.length = 64 ∧ ∀ b ∈ d, b < 256)
    (hdiff : e1.inner.id ≠ e2.inner.id ∨
      print_path e1.inner.path ≠ print_path e2.inner.path ∨
      e1.depends_on ≠ e2.depends_on) :
    e1.digestPreimage ≠ e2.digestPreimage := by
  intro h
  obtain ⟨h1, h2, h3⟩ := digestPreimage_components hl1 hl2 hd1 hd2 h
  rcases hdiff with hd | hd | hd <;> exact hd (by assumption)

/-- The two envelopes of the C2 counterexample: identical except that
their paths index different op ids sharing the first three bytes. -/
def c2e (b : Byte) : SignedOp :=
  { author := make_author 1, signed_digest := List.replicate 64 0,
    inner := { origin := ROOT_ID, author := make_author 1, seq := 1,
               content := some .Null,
               path := [.Index (0 :: 0 :: 0 :: b :: List.replicate 28 0)],
               is_deleted := false, id := ROOT_ID },
    depends_on := [] }

set_option maxRecDepth 100000 in
/-- C2 counterexample: the claim also asserts injectivity in the *path*,
but `print_path` keeps only the first six hex characters of an `Index`
segment, so these two envelopes differ in their paths (and in nothing
else) yet their digest pre-images are byte-identical — the mutation *can*
be re-homed to another location with the same digest. -/
theorem c2_counterexample :
    (c2e 0).inner.path ≠ (c2e 7).inner.path ∧
    (c2e 0).digestPreimage = (c2e 7).digestPreimage := by
  constructor
  · decide
  · rfl

/-- C2 amended, witnessed at concrete input: envelopes differing in the
dependency list have different pre-images. -/
theorem c2_amended_witness :
    ((c2e 0).inner.id.length = 32) ∧
    ({ c2e 0 with depends_on := [List.replicate 64 5] } : SignedOp).digestPreimage ≠
      (c2e 0).digestPreimage := by
  refine ⟨by decide, ?_⟩
  exact c2_amended _ _ (by decide) (by decide)
    (by
      intro d hd
      simp only [List.mem_singleton] at hd
      subst hd
      exact ⟨by decide, by
        intro b hb
        have hb5 := List.eq_of_mem_replicate hb
        exact hb5 ▸ (by norm_num)⟩)
    (by simp [c2e])
    (Or.inr (Or.inr (by simp [c2e])))

/-! ## C4: idempotence — machinery

The fields of an op the integration order depends on (everything except
the tombstone flag, which deletes toggle in place). -/

def pfields (o : Op) : OpId × OpId × Nat × AuthorId × Option Value × List PathSegment :=
  (o.id, o.origin, o.seq, o.author, o.content, o.path)

theorem pfields_id {o e : Op} (h : pfields o = pfields e) : o.id = e.id := by
  simpa [pfields] using congrArg (·.1) h

/-! Positional facts about `findIdxOp`. -/

theorem findIdxOp_some_lt {ops : List Op} {x : OpId} {q : Nat}
    (h : findIdxOp ops x = some q) : q < ops.length := by
  induction ops generalizing q with
  | nil => simp [findIdxOp] at h
  | cons o rest ih =>
      by_cases ho : o.id = x
      · simp only [findIdxOp, if_pos ho, Option.some.injEq] at h
        subst h
        simp
      · simp only [findIdxOp, if_neg ho] at h
        rcases hr : findIdxOp rest x with _ | q'
        · rw [hr] at h
          simp at h
        · rw [hr] at h
          simp only [Option.map_some', Option.some.injEq] at h
          have := ih hr
          simp only [List.length_cons]
          omega

theorem findIdxOp_id {ops : List Op} {x : OpId} {q : Nat}
    (h : findIdxOp ops x = some q) : ∃ e, ops[q]? = some e ∧ e.id = x := by
  induction ops generalizing q with
  | nil => simp [findIdxOp] at h
  | cons o rest ih =>
      by_cases ho : o.id = x
      · simp only [findIdxOp, if_pos ho, Option.some.injEq] at h
        subst h
        exact ⟨o, by simp, ho⟩
      · simp only [findIdxOp, if_neg ho] at h
        rcases hr : findIdxOp rest x with _ | q'
        · rw [hr] at h
          simp at h
        · rw [hr] at h
          simp only [Option.map_some', Option.some.injEq] at h
          obtain ⟨e, he, hid⟩ := ih hr
          exact ⟨e, by simp [← h, he], hid⟩

theorem findIdxOp_first {ops : List Op} {x : OpId} {q : Nat}
    (h : findIdxOp ops x = some q) :
    ∀ j, j < q → ∀ e, ops[j]? = some e → ¬ e.id = x := by
  induction ops generalizing q with
  | nil => simp [findIdxOp] at h
  | cons o rest ih =>
      by_cases ho : o.id = x
      · simp only [findIdxOp, if_pos ho, Option.some.injEq] at h
        subst h
        omega
      · simp only [findIdxOp, if_neg ho] at h
        rcases hr : findIdxOp rest x with _ | q'
        · rw [hr] at h
          simp at h
        · rw [hr] at h
          simp only [Option.map_some', Option.some.injEq] at h
          intro j hj e he
          cases j with
          | zero =>
              simp at he
              simpa [← he] using ho
          | succ j' =>
              simp at he
              exact ih hr j' (by omega) e he

theorem findIdxOp_of_facts {ops : List Op} {x : OpId} {q : Nat}
    (hq : ∃ e, ops[q]? = some e ∧ e.id = x)
    (hfirst : ∀ j, j < q → ∀ e, ops[j]? = some e → ¬ e.id = x) :
    findIdxOp ops x = some q := by
  induction ops generalizing q with
  | nil =>
      obtain ⟨e, he, _⟩ := hq
      simp at he
  | cons o rest ih =>
      cases q with
      | zero =>
          obtain ⟨e, he, hid⟩ := hq
          simp at he
          simp [findIdxOp, he ▸ hid]
      | succ q' =>
          have ho : ¬ o.id = x := hfirst 0 (by omega) o (by simp)
          obtain ⟨e, he, hid⟩ := hq
          simp at he
          have := ih (q := q') ⟨e, by simpa using he, hid⟩
            (fun j hj e' he' => hfirst (j + 1) (by omega) e' (by simpa using he'))
          simp [findIdxOp, ho, this]

theorem findIdxOp_none {ops : List Op} {x : OpId}
    (h : findIdxOp ops x = none) : ∀ e ∈ ops, ¬ e.id = x := by
  induction ops with
  | nil => simp
  | cons o rest ih =>
      by_cases ho : o.id = x
      · simp [findIdxOp, ho] at h
      · simp only [findIdxOp, if_neg ho] at h
        rcases hr : findIdxOp rest x with _ | q'
        · intro e he
          rcases List.mem_cons.mp he with rfl | he'
          · exact ho
          · exact ih hr e he'
        · rw [hr] at h
          simp at h

theorem findIdxOp_isSome_of_mem {ops : List Op} {e : Op} (he : e ∈ ops) :
    (findIdxOp ops e.id).isSome = true := by
  rcases h : findIdxOp ops e.id with _ | q
  · exact absurd rfl (findIdxOp_none h e he)
  · rfl

/-! `markAt` only toggles the tombstone flag. -/

theorem markAt_length (ops : List Op) (p : Nat) : (markAt ops p).length = ops.length := by
  induction ops generalizing p with
  | nil => rfl
  | cons o rest ih => cases p <;> simp [markAt, ih]

theorem markAt_pfields (ops : List Op) (p : Nat) :
    (markAt ops p).map pfields = ops.map pfields := by
  induction ops generalizing p with
  | nil => rfl
  | cons o rest ih => cases p <;> simp [markAt, pfields, ih]

theorem markAt_markAt (ops : List Op) (p : Nat) :
    markAt (markAt ops p) p = markAt ops p := by
  induction ops generalizing p with
  | nil => rfl
  | cons o rest ih => cases p <;> simp [markAt, ih]

/-- `findIdxOp` only looks at ids, so it is invariant under `pfields`
preservation. -/
theorem findIdxOp_congr {ops₁ ops₂ : List Op}
    (h : ops₁.map pfields = ops₂.map pfields) (x : OpId) :
    findIdxOp ops₁ x = findIdxOp ops₂ x := by
  induction ops₁ generalizing ops₂ with
  | nil => cases ops₂ <;> simp_all [findIdxOp]
  | cons o rest ih =>
      cases ops₂ with
      | nil => simp at h
      | cons o₂ rest₂ =>
          simp only [List.map_cons, List.cons.injEq] at h
          have hid : o.id = o₂.id := pfields_id h.1
          by_cases ho : o.id = x
          · simp [findIdxOp, ho, hid ▸ ho, ← hid]
          · have : ¬ o₂.id = x := by rw [← hid]; exact ho
            simp [findIdxOp, ho, this, ih h.2]

/-! `insertIdx` beyond a prefix leaves the prefix untouched. -/

theorem insertIdx_take_of_le {α : Type} (l : List α) (a : α) (k i : Nat) (h : k ≤ i) :
    (l.insertIdx i a).take k = l.take k := by
  induction l generalizing k i with
  | nil =>
      cases i with
      | zero =>
          interval_cases k <;> simp [List.insertIdx_zero]
      | succ i' => simp [List.insertIdx_succ_nil]
  | cons x xs ih =>
      cases i with
      | zero =>
          interval_cases k <;> simp [List.insertIdx_zero]
      | succ i' =>
          cases k with
          | zero => simp
          | succ k' =>
              rw [List.insertIdx_succ_cons]
              simp only [List.take_succ_cons]
              rw [ih k' i' (by omega)]

theorem getElem?_insertIdx_of_lt {α : Type} :
    ∀ (l : List α) (a : α) (i j : Nat), j < i → (l.insertIdx i a)[j]? = l[j]? := by
  intro l
  induction l with
  | nil =>
      intro a i j h
      cases i with
      | zero => omega
      | succ i' => rw [List.insertIdx_succ_nil]
  | cons x xs ih =>
      intro a i j h
      cases i with
      | zero => omega
      | succ i' =>
          rw [List.insertIdx_succ_cons]
          cases j with
          | zero => simp
          | succ j' =>
              simp only [List.getElem?_cons_succ]
              exact ih a i' j' (by omega)

/-! Register-side idempotence: one application is a fixed point. -/

theorem bytesLt_irrefl (a : List Byte) : bytesLt a a = false := by
  induction a with
  | nil => rfl
  | cons x xs ih => simp [bytesLt, ih]

/-- Applying the same op to a register twice equals applying it once: the
second application finds `our_seq` already at or above the op's seq, and
on a tie the stored author is never strictly above itself. -/
theorem lww_apply_apply (sha : List Char → OpId) (s : LwwRegisterCrdt) (op : Op) :
    ((s.apply sha op).2).apply sha op = s.apply sha op := by
  by_cases hv : op.is_valid_hash sha = true
  · simp only [LwwRegisterCrdt.apply, hv, Bool.not_true, Bool.false_eq_true, if_false]
    rcases Nat.lt_trichotomy s.our_seq op.seq with hlt | heq | hgt
    · simp [hlt, Nat.max_eq_right (Nat.le_of_lt hlt), bytesLt_irrefl, Nat.lt_irrefl]
    · by_cases hb : bytesLt op.author s.value.author = true
      · simp [heq, Nat.lt_irrefl, hb, bytesLt_irrefl, Nat.max_self]
      · simp [heq, Nat.lt_irrefl, hb, Nat.max_self]
    · have h1 : ¬ s.our_seq < op.seq := by omega
      have h2 : ¬ op.seq = s.our_seq := by omega
      simp [h1, h2, Nat.max_eq_left (Nat.le_of_lt hgt)]
  · simp only [LwwRegisterCrdt.apply, hv]
    simp [hv]

/-- `k` successive applications of the same op to a register. -/
def applyNReg (sha : List Char → OpId) (s : LwwRegisterCrdt) (op : Op) : Nat → LwwRegisterCrdt
  | 0 => s
  | k + 1 => ((applyNReg sha s op k).apply sha op).2

theorem applyNReg_fixed (sha : List Char → OpId) (s : LwwRegisterCrdt) (op : Op) :
    ∀ k : Nat, applyNReg sha s op (k + 1) = (s.apply sha op).2 := by
  intro k
  induction k with
  | zero => rfl
  | succ k ih =>
      show ((applyNReg sha s op (k + 1)).apply sha op).2 = _
      rw [ih, lww_apply_apply]

/-! List-side idempotence machinery: how `findIdxOp` and the scan react
to the insertion the first application performed. -/

theorem qPop_none {κ α : Type} [DecidableEq κ] (q : AList κ α) (k : κ)
    (h : (qPop q k).1 = none) : (qPop q k).2 = q := by
  induction q with
  | nil => rfl
  | cons e rest ih =>
      by_cases he : e.1 = k
      · simp [qPop, he] at h
      · have h' : (qPop rest k).1 = none := by simpa [qPop, he] using h
        simp [qPop, he, ih h']

theorem findIdxOp_cons_neg (a : Op) (l : List Op) (x : OpId) (ha : ¬ a.id = x) :
    findIdxOp (a :: l) x = (findIdxOp l x).map (· + 1) := by
  simp [findIdxOp, ha]

theorem findIdxOp_insertIdx_lt {ops : List Op} {x : OpId} {q : Nat} (a : Op) (i : Nat)
    (h : findIdxOp ops x = some q) (hq : q < i) :
    findIdxOp (ops.insertIdx i a) x = some q := by
  induction ops generalizing i q with
  | nil => simp [findIdxOp] at h
  | cons o rest ih =>
      cases i with
      | zero => omega
      | succ i' =>
          rw [List.insertIdx_succ_cons]
          by_cases ho : o.id = x
          · simp only [findIdxOp, if_pos ho, Option.some.injEq] at h ⊢
            exact h
          · simp only [findIdxOp, if_neg ho] at h ⊢
            rcases hr : findIdxOp rest x with _ | q'
            · rw [hr] at h
              simp at h
            · rw [hr] at h
              simp only [Option.map_some', Option.some.injEq] at h
              rw [ih i' hr (by omega)]
              simp only [Option.map_some', Option.some.injEq]
              exact h

theorem findIdxOp_insertIdx_ge {ops : List Op} {x : OpId} {q : Nat} (a : Op) (i : Nat)
    (h : findIdxOp ops x = some q) (hq : i ≤ q) (ha : ¬ a.id = x) :
    findIdxOp (ops.insertIdx i a) x = some (q + 1) := by
  induction ops generalizing i q with
  | nil => simp [findIdxOp] at h
  | cons o rest ih =>
      cases i with
      | zero =>
          rw [List.insertIdx_zero, findIdxOp_cons_neg a _ x ha, h]
          rfl
      | succ i' =>
          rw [List.insertIdx_succ_cons]
          by_cases ho : o.id = x
          · simp only [findIdxOp, if_pos ho, Option.some.injEq] at h
            omega
          · simp only [findIdxOp, if_neg ho] at h ⊢
            rcases hr : findIdxOp rest x with _ | q'
            · rw [hr] at h
              simp at h
            · rw [hr] at h
              simp only [Option.map_some', Option.some.injEq] at h
              rw [ih i' hr (by omega)]
              simp only [Option.map_some', Option.some.injEq]
              omega

theorem drop_insertIdx_self {α : Type} :
    ∀ (l : List α) (a : α) (i : Nat), i ≤ l.length →
      (l.insertIdx i a).drop i = a :: l.drop i := by
  intro l
  induction l with
  | nil =>
      intro a i h
      have hi0 : i = 0 := by simpa using h
      subst hi0
      simp [List.insertIdx_zero]
  | cons x xs ih =>
      intro a i h
      cases i with
      | zero => simp [List.insertIdx_zero]
      | succ i' =>
          rw [List.insertIdx_succ_cons]
          simp only [List.drop_succ_cons]
          exact ih a i' (by simpa using h)

/-- A scan that decides to insert at `i` started at or before `i` and
stops within the scanned suffix. -/
theorem scanGo_insertAt_bounds (ops : List Op) (n : Op) (p : Nat) :
    ∀ (l : List Op) (j i : Nat), scanGo ops n p l j = .insertAt i →
      j ≤ i ∧ i ≤ j + l.length := by
  intro l
  induction l with
  | nil =>
      intro j i h
      simp only [scanGo, ScanRes.insertAt.injEq] at h
      omega
  | cons e rest ih =>
      intro j i h
      rcases hr : findIdxOp ops e.origin with _ | q
      · simp [scanGo, hr] at h
      · simp only [scanGo, hr] at h
        by_cases hid : e.id = n.id
        · simp [hid] at h
        · rw [if_neg hid] at h
          by_cases h1 : q < p
          · rw [if_pos h1] at h
            simp only [ScanRes.insertAt.injEq] at h
            simp only [List.length_cons]
            omega
          · rw [if_neg h1] at h
            by_cases h2 : q = p
            · rw [if_pos h2] at h
              by_cases h3 : e.seq < n.seq
              · rw [if_pos h3] at h
                simp only [ScanRes.insertAt.injEq] at h
                simp only [List.length_cons]
                omega
              · rw [if_neg h3] at h
                by_cases h4 : (decide (e.seq = n.seq) && bytesLt e.author n.author) = true
                · rw [if_pos h4] at h
                  simp only [ScanRes.insertAt.injEq] at h
                  simp only [List.length_cons]
                  omega
                · rw [if_neg h4] at h
                  have := ih (j + 1) i h
                  simp only [List.length_cons]
                  omega
            · rw [if_neg h2] at h
              have := ih (j + 1) i h
              simp only [List.length_cons]
              omega

/-- The heart of list idempotence: if the scan from position `j` decided
to insert the (fresh) op at `i`, then after that insertion a scan of the
new array from `j` walks the same elements — their parent positions shift
past the insertion point but never cross the new op's parent — reaches
the inserted copy at `i`, and stops on its duplicate id. -/
theorem scanGo_insert_dup (ops : List Op) (n : Op) (p i : Nat)
    (hfresh : ∀ o ∈ ops, ¬ o.id = n.id)
    (hi : i ≤ ops.length) (hp : p < i)
    (horigin : findIdxOp (ops.insertIdx i n) n.origin = some p) :
    ∀ (m j : Nat), j + m = i →
      scanGo ops n p (ops.drop j) j = .insertAt i →
      scanGo (ops.insertIdx i n) n p ((ops.insertIdx i n).drop j) j = .dup := by
  intro m
  induction m with
  | zero =>
      intro j hj _
      have hji : j = i := by omega
      subst hji
      rw [drop_insertIdx_self ops n j hi]
      simp [scanGo, horigin]
  | succ m ih =>
      intro j hj hscan
      have hji : j < i := by omega
      have hjlen : j < ops.length := by omega
      rw [List.drop_eq_getElem_cons hjlen] at hscan
      have hjlen' : j < (ops.insertIdx i n).length := by
        rw [List.length_insertIdx i ops hi]
        omega
      rw [List.drop_eq_getElem_cons hjlen']
      have hsame : (ops.insertIdx i n)[j] = ops[j] := by
        have hh := getElem?_insertIdx_of_lt ops n i j hji
        rw [List.getElem?_eq_getElem hjlen', List.getElem?_eq_getElem hjlen] at hh
        exact Option.some.inj hh
      rw [hsame]
      have hmem : ops[j] ∈ ops := List.getElem_mem hjlen
      have hid : ¬ (ops[j]).id = n.id := hfresh _ hmem
      rcases hq : findIdxOp ops (ops[j]).origin with _ | q
      · simp [scanGo, hq, hid] at hscan
      · simp only [scanGo, hq, if_neg hid] at hscan
        have horigid : ¬ n.id = (ops[j]).origin := by
          obtain ⟨e', he', hide'⟩ := findIdxOp_id hq
          have : e' ∈ ops := List.getElem?_mem he'
          intro hcontra
          exact hfresh e' this (by rw [hide', ← hcontra])
        have hq' : ∃ q', findIdxOp (ops.insertIdx i n) (ops[j]).origin = some q' ∧
            (q < i → q' = q) ∧ (i ≤ q → q' = q + 1) := by
          by_cases hqi : q < i
          · exact ⟨q, findIdxOp_insertIdx_lt n i hq hqi, fun _ => rfl, fun h => by omega⟩
          · exact ⟨q + 1, findIdxOp_insertIdx_ge n i hq (by omega) horigid,
              fun h => by omega, fun _ => rfl⟩
        obtain ⟨q', hq'eq, hlt, hge⟩ := hq'
        by_cases h1 : q < p
        · rw [if_pos h1] at hscan
          simp only [ScanRes.insertAt.injEq] at hscan
          omega
        · rw [if_neg h1] at hscan
          have hq'p : ¬ q' < p := by
            by_cases hqi : q < i
            · rw [hlt hqi]; exact h1
            · rw [hge (by omega)]; omega
          by_cases h2 : q = p
          · have hq'2 : q' = p := by rw [hlt (by omega)]; exact h2
            rw [if_pos h2] at hscan
            by_cases h3 : (ops[j]).seq < n.seq
            · rw [if_pos h3] at hscan
              simp only [ScanRes.insertAt.injEq] at hscan
              omega
            · rw [if_neg h3] at hscan
              by_cases h4 : (decide ((ops[j]).seq = n.seq) && bytesLt (ops[j]).author n.author) = true
              · rw [if_pos h4] at hscan
                simp only [ScanRes.insertAt.injEq] at hscan
                omega
              · rw [if_neg h4] at hscan
                simp only [scanGo, hq'eq, if_neg hid, if_neg hq'p, if_pos hq'2,
                  if_neg h3, if_neg h4]
                exact ih (j + 1) (by omega) hscan
          · have hq'2 : ¬ q' = p := by
              by_cases hqi : q < i
              · rw [hlt hqi]; exact h2
              · rw [hge (by omega)]; omega
            rw [if_neg h2] at hscan
            simp only [scanGo, hq'eq, if_neg hid, if_neg hq'p, if_neg hq'2]
            exact ih (j + 1) (by omega) hscan

/-- Packaging of the previous lemma at the `scan` entry point, together
with the position facts it needs. -/
theorem scan_insert_dup (ops : List Op) (n : Op) (p i : Nat)
    (hfresh : ∀ o ∈ ops, ¬ o.id = n.id)
    (hporig : findIdxOp ops n.origin = some p)
    (hscan : scan ops n p = .insertAt i) :
    scan (ops.insertIdx i n) n p = .dup ∧ p < i ∧ i ≤ ops.length ∧
      findIdxOp (ops.insertIdx i n) n.origin = some p := by
  have hplen : p < ops.length := findIdxOp_some_lt hporig
  have hb := scanGo_insertAt_bounds ops n p (ops.drop (p + 1)) (p + 1) i hscan
  have hdl : (ops.drop (p + 1)).length = ops.length - (p + 1) := List.length_drop ..
  have hilen : i ≤ ops.length := by omega
  have hpi : p < i := by omega
  have horigin' : findIdxOp (ops.insertIdx i n) n.origin = some p :=
    findIdxOp_insertIdx_lt n i hporig hpi
  refine ⟨?_, hpi, hilen, horigin'⟩
  have := scanGo_insert_dup ops n p i hfresh hilen hpi horigin'
    (i - (p + 1)) (p + 1) (by omega) hscan
  simpa [scan] using this

/-- `k` successive applications of the same op through `ListCrdt::apply`
(`none` propagates the scan's `unwrap` panic). -/
def applyNList (sha : List Char → OpId) (s : ListCrdt) (op : Op) : Nat → Option ListCrdt
  | 0 => some s
  | k + 1 => (applyNList sha s op k).bind (fun s' => (s'.apply sha op).map (·.2))

/-- A fresh insert integrates exactly once, and a second integration of
the same op is the identity on the state. -/
theorem integrate_insert_idem (s : ListCrdt) (n : Op) (p i : Nat)
    (hdel : n.is_deleted = false)
    (hfind : findIdxOp s.ops n.origin = some p)
    (hscan : scan s.ops n p = .insertAt i)
    (hfresh : ∀ o ∈ s.ops, ¬ o.id = n.id)
    (hq : (qPop s.message_q n.id).1 = none) :
    s.integrate n = some (.Ok,
      { s with ops := s.ops.insertIdx i n, our_seq := max s.our_seq n.seq }) ∧
    ({ s with ops := s.ops.insertIdx i n, our_seq := max s.our_seq n.seq } : ListCrdt).integrate n
      = some (.Ok, { s with ops := s.ops.insertIdx i n, our_seq := max s.our_seq n.seq }) ∧
    p < i ∧ i ≤ s.ops.length := by
  obtain ⟨hdup, hpi, hilen, horigin'⟩ := scan_insert_dup s.ops n p i hfresh hfind hscan
  have hq2 : (qPop s.message_q n.id).2 = s.message_q := qPop_none _ _ hq
  refine ⟨?_, ?_, hpi, hilen⟩
  · simp only [ListCrdt.integrate, integrateW, hfind, hdel, hscan, hq, hq2]
    simp [integrateStatus, hfind, integrateW]
  · simp only [ListCrdt.integrate, integrateW, horigin', hdel, hdup]
    simp [integrateStatus, horigin', integrateW]

/-- Re-applying an insert through `ListCrdt::apply` any positive number
of times equals applying it once, and the integrated copy stays unique. -/
theorem list_insert_apply_idem (sha : List Char → OpId) (s : ListCrdt) (n : Op) (oid : OpId)
    (p i : Nat)
    (hv : n.is_valid_hash sha = true)
    (hpath : n.path = join_path s.path (.Index oid))
    (hdel : n.is_deleted = false)
    (hfind : findIdxOp s.ops n.origin = some p)
    (hscan : scan s.ops n p = .insertAt i)
    (hfresh : ∀ o ∈ s.ops, ¬ o.id = n.id)
    (hq : (qPop s.message_q n.id).1 = none) :
    ∀ k, applyNList sha s n (k + 1) = (s.apply sha n).map (·.2) ∧
      ∀ s', applyNList sha s n (k + 1) = some s' →
        s'.ops.countP (fun o => decide (o.id = n.id)) = 1 := by
  obtain ⟨h1, h2, hpi, hilen⟩ := integrate_insert_idem s n p i hdel hfind hscan hfresh hq
  set S1 : ListCrdt :=
    { s with ops := s.ops.insertIdx i n, our_seq := max s.our_seq n.seq } with hS1
  have happ : s.apply sha n = some (.Ok, S1) := by
    rw [apply_to_integrate sha s n oid hv hpath]
    exact h1
  have happ1 : S1.apply sha n = some (.Ok, S1) := by
    rw [apply_to_integrate sha S1 n oid hv (by rw [hpath])]
    exact h2
  have hcount : S1.ops.countP (fun o => decide (o.id = n.id)) = 1 := by
    have hperm := List.perm_insertIdx n s.ops hilen
    have hpc := hperm.countP_eq (fun o => decide (o.id = n.id))
    have hops : S1.ops = s.ops.insertIdx i n := rfl
    rw [hops, hpc, List.countP_cons]
    have hz : s.ops.countP (fun o => decide (o.id = n.id)) = 0 :=
      List.countP_eq_zero.mpr (fun o ho => by simpa using hfresh o ho)
    simp [hz]
  have hfix : ∀ k, applyNList sha s n (k + 1) = some S1 := by
    intro k
    induction k with
    | zero => simp [applyNList, happ]
    | succ k ih =>
        show (applyNList sha s n (k + 1)).bind _ = _
        rw [ih]
        simp [happ1]
  intro k
  refine ⟨by rw [hfix k, happ]; rfl, fun s' hs' => ?_⟩
  rw [hfix k] at hs'
  obtain rfl := Option.some.inj hs'
  exact hcount

/-- Re-applying an op whose scan stops on a duplicate id is the identity. -/
theorem list_dup_apply_idem (sha : List Char → OpId) (s : ListCrdt) (n : Op) (oid : OpId)
    (p : Nat)
    (hv : n.is_valid_hash sha = true)
    (hpath : n.path = join_path s.path (.Index oid))
    (hdel : n.is_deleted = false)
    (hfind : findIdxOp s.ops n.origin = some p)
    (hdup : scan s.ops n p = .dup) :
    ∀ k, applyNList sha s n (k + 1) = (s.apply sha n).map (·.2) ∧
      applyNList sha s n (k + 1) = some s := by
  have happ : s.apply sha n = some (.Ok, s) := by
    rw [apply_to_integrate sha s n oid hv hpath]
    simp only [ListCrdt.integrate, integrateW, hfind, hdel, hdup]
    simp [integrateStatus, hfind, integrateW]
  have hfix : ∀ k, applyNList sha s n (k + 1) = some s := by
    intro k
    induction k with
    | zero => simp [applyNList, happ]
    | succ k ih =>
        show (applyNList sha s n (k + 1)).bind _ = _
        rw [ih]
        simp [happ]
  intro k
  exact ⟨by rw [hfix k, happ]; rfl, hfix k⟩

/-- Re-applying a delete re-marks the same tombstone: `k`-fold
application equals one application. -/
theorem list_delete_apply_idem (sha : List Char → OpId) (s : ListCrdt) (n : Op) (oid : OpId)
    (p : Nat)
    (hv : n.is_valid_hash sha = true)
    (hpath : n.path = join_path s.path (.Index oid))
    (hdel : n.is_deleted = true)
    (hfind : findIdxOp s.ops n.origin = some p) :
    ∀ k, applyNList sha s n (k + 1) = (s.apply sha n).map (·.2) := by
  set S1 : ListCrdt := { s with ops := markAt s.ops p } with hS1
  have happ : s.apply sha n = some (.Ok, S1) := by
    rw [apply_to_integrate sha s n oid hv hpath]
    simp only [ListCrdt.integrate, integrateW, hfind, hdel]
    simp [integrateStatus, hfind, integrateW]
  have hfind1 : findIdxOp S1.ops n.origin = some p := by
    have hops : S1.ops = markAt s.ops p := rfl
    rw [hops, findIdxOp_congr (markAt_pfields s.ops p), hfind]
  have happ1 : S1.apply sha n = some (.Ok, S1) := by
    rw [apply_to_integrate sha S1 n oid hv (by rw [hpath])]
    simp only [ListCrdt.integrate, integrateW, hfind1, hdel]
    simp [integrateStatus, hfind1, integrateW, markAt_markAt]
  have hfix : ∀ k, applyNList sha s n (k + 1) = some S1 := by
    intro k
    induction k with
    | zero => simp [applyNList, happ]
    | succ k ih =>
        show (applyNList sha s n (k + 1)).bind _ = _
        rw [ih]
        simp [happ1]
  intro k
  rw [hfix k, happ]
  rfl

/-- Re-applying an op whose anchor is unknown parks it again each time:
the array (hence the view) never changes. -/
theorem list_park_apply_idem (sha : List Char → OpId) (s : ListCrdt) (n : Op) (oid : OpId)
    (hv : n.is_valid_hash sha = true)
    (hpath : n.path = join_path s.path (.Index oid))
    (hfind : findIdxOp s.ops n.origin = none) :
    ∀ k, ∃ s', applyNList sha s n (k + 1) = some s' ∧ s'.ops = s.ops ∧
      s'.path = s.path := by
  have step : ∀ (t : ListCrdt), t.ops = s.ops → t.path = s.path →
      t.apply sha n = some (.MissingCausalDependencies,
        { t with message_q := qPush t.message_q n.origin n }) := by
    intro t hops hpath'
    rw [apply_to_integrate sha t n oid hv (by rw [hpath, hpath'])]
    have hfind' : findIdxOp t.ops n.origin = none := by rw [hops]; exact hfind
    simp only [ListCrdt.integrate, integrateW, hfind']
    simp [integrateStatus, hfind', integrateW]
  intro k
  induction k with
  | zero =>
      refine ⟨{ s with message_q := qPush s.message_q n.origin n }, ?_, rfl, rfl⟩
      simp [applyNList, step s rfl rfl]
  | succ k ih =>
      obtain ⟨s', h1, h2, h3⟩ := ih
      refine ⟨{ s' with message_q := qPush s'.message_q n.origin n }, ?_, h2, h3⟩
      show (applyNList sha s n (k + 1)).bind _ = _
      rw [h1]
      simp [step s' h2 h3]

/-- C4: idempotence.  Applying an op to a register any positive number of
times produces the same state (hence the same `view()`) as applying it
once, for every op and every register state.  For a list with the op
addressed to it and hash-valid: a fresh insert whose anchor is known
integrates once and every further application is the identity — the
re-scan stops on the duplicate id, so no second copy is inserted and the
copy count stays 1; an op whose scan already finds its duplicate leaves
the state untouched; a delete re-marks the same tombstone; and an op with
an unknown anchor is parked without ever touching the array. -/
theorem c4_idempotent (sha : List Char → OpId) :
    (∀ (s : LwwRegisterCrdt) (op : Op) (k : Nat),
        applyNReg sha s op (k + 1) = (s.apply sha op).2) ∧
    (∀ (s : ListCrdt) (n : Op) (oid : OpId) (p i k : Nat),
        n.is_valid_hash sha = true →
        n.path = join_path s.path (.Index oid) →
        n.is_deleted = false →
        findIdxOp s.ops n.origin = some p →
        scan s.ops n p = .insertAt i →
        (∀ o ∈ s.ops, ¬ o.id = n.id) →
        (qPop s.message_q n.id).1 = none →
        applyNList sha s n (k + 1) = (s.apply sha n).map (·.2) ∧
        ∀ s', applyNList sha s n (k + 1) = some s' →
          s'.ops.countP (fun o => decide (o.id = n.id)) = 1) ∧
    (∀ (s : ListCrdt) (n : Op) (oid : OpId) (p k : Nat),
        n.is_valid_hash sha = true →
        n.path = join_path s.path (.Index oid) →
        n.is_deleted = false →
        findIdxOp s.ops n.origin = some p →
        scan s.ops n p = .dup →
        applyNList sha s n (k + 1) = (s.apply sha n).map (·.2) ∧
          applyNList sha s n (k + 1) = some s) ∧
    (∀ (s : ListCrdt) (n : Op) (oid : OpId) (p k : Nat),
        n.is_valid_hash sha = true →
        n.path = join_path s.path (.Index oid) →
        n.is_deleted = true →
        findIdxOp s.ops n.origin = some p →
        applyNList sha s n (k + 1) = (s.apply sha n).map (·.2)) ∧
    (∀ (s : ListCrdt) (n : Op) (oid : OpId) (k : Nat),
        n.is_valid_hash sha = true →
        n.path = join_path s.path (.Index oid) →
        findIdxOp s.ops n.origin = none →
        ∃ s', applyNList sha s n (k + 1) = some s' ∧ s'.ops = s.ops) := by
  refine ⟨fun s op k => applyNReg_fixed sha s op k,
    fun s n oid p i k hv hpath hdel hfind hscan hfresh hq =>
      list_insert_apply_idem sha s n oid p i hv hpath hdel hfind hscan hfresh hq k,
    fun s n oid p k hv hpath hdel hfind hdup =>
      list_dup_apply_idem sha s n oid p hv hpath hdel hfind hdup k,
    fun s n oid p k hv hpath hdel hfind =>
      list_delete_apply_idem sha s n oid p hv hpath hdel hfind k,
    fun s n oid k hv hpath hfind => ?_⟩
  obtain ⟨s', h1, h2, _⟩ := list_park_apply_idem sha s n oid hv hpath hfind k
  exact ⟨s', h1, h2⟩

/-! Concrete inputs exercising every branch of the idempotence theorem. -/

def c4reg : LwwRegisterCrdt := LwwRegisterCrdt.new (make_author 1) []

def c4regop : Op := Op.new sha0 ROOT_ID (make_author 2) 1 false (some (.String "x")) []

def c4list : ListCrdt := ListCrdt.new (make_author 1) []

def c4ins0 : Op := Op.new sha0 ROOT_ID (make_author 2) 1 false (some (.String "a")) []

def c4ins : Op := { c4ins0 with path := join_path [] (.Index c4ins0.id) }

/-- The list state after `c4ins` has been integrated once. -/
def c4listIns : ListCrdt :=
  { our_id := make_author 1, path := [], ops := [Op.make_root, c4ins],
    message_q := [], our_seq := 1 }

def c4del : Op := Op.new sha0 ROOT_ID (make_author 2) 1 true none
  (join_path [] (.Index ROOT_ID))

def c4park : Op := Op.new sha0 (make_author 9) (make_author 2) 1 true none
  (join_path [] (.Index (make_author 9)))

set_option maxRecDepth 1000000 in
/-- Closed instantiation of every branch of the idempotence theorem:
three successive applications at concrete register and list states. -/
theorem c4_idempotent_witness :
    applyNReg sha0 c4reg c4regop 3 = (c4reg.apply sha0 c4regop).2 ∧
    applyNList sha0 c4list c4ins 3 = (c4list.apply sha0 c4ins).map (·.2) ∧
    c4listIns.ops.countP (fun o => decide (o.id = c4ins.id)) = 1 ∧
    applyNList sha0 c4listIns c4ins 3 = some c4listIns ∧
    applyNList sha0 c4list c4del 3 = (c4list.apply sha0 c4del).map (·.2) ∧
    (∃ s', applyNList sha0 c4list c4park 3 = some s' ∧ s'.ops = c4list.ops) := by
  have heval : (c4list.apply sha0 c4ins).map (·.2) = some c4listIns := by
    simp +decide [c4list, c4ins, c4ins0, c4listIns, ListCrdt.new, ListCrdt.apply,
      ListCrdt.integrate, integrateW, integrateStatus, Op.new, scan, scanGo, findIdxOp,
      ensure_subpath, qPop, join_path]
  refine ⟨(c4_idempotent sha0).1 c4reg c4regop 2, ?_, ?_, ?_, ?_, ?_⟩
  · exact ((c4_idempotent sha0).2.1 c4list c4ins c4ins0.id 0 1 2 (by decide) rfl rfl
      (by decide) (by decide) (by decide) rfl).1
  · refine ((c4_idempotent sha0).2.1 c4list c4ins c4ins0.id 0 1 2 (by decide) rfl rfl
      (by decide) (by decide) (by decide) rfl).2 c4listIns ?_
    rw [((c4_idempotent sha0).2.1 c4list c4ins c4ins0.id 0 1 2 (by decide) rfl rfl
      (by decide) (by decide) (by decide) rfl).1]
    exact heval
  · exact ((c4_idempotent sha0).2.2.1 c4listIns c4ins c4ins0.id 0 2 (by decide) rfl rfl
      (by decide) (by decide)).2
  · exact (c4_idempotent sha0).2.2.2.1 c4list c4del ROOT_ID 0 2 (by decide) rfl rfl (by decide)
  · exact (c4_idempotent sha0).2.2.2.2 c4list c4park (make_author 9) 2 (by decide) rfl (by decide)

/-! ## C1: atomicity of integrity failures at the document root -/

/-- Signature verification that accepts everything: the scenario of a
correctly signed envelope whose *inner* op fails hash validation. -/
def c1verify : SignedOp → Bool := fun _ => true

/-- A doc node that logs every op handed to it, reporting the hash
failure the real doc reports for a content-free non-delete op. -/
def c1applyD : List Op → Op → OpState × List Op :=
  fun l op =>
    (if op.content.isNone && !op.is_deleted then .ErrHashMismatch else .Ok, l ++ [op])

/-- An inner op of the shape every `is_valid_hash` rejects. -/
def c1innerBad : Op :=
  { origin := ROOT_ID, author := make_author 2, seq := 1, content := none,
    path := [], is_deleted := false, id := make_author 3 }

def c1bad : SignedOp :=
  { author := make_author 2, signed_digest := make_author 7, inner := c1innerBad,
    depends_on := [] }

def c1innerDep : Op :=
  { origin := ROOT_ID, author := make_author 2, seq := 2,
    content := some (.String "a"), path := [], is_deleted := false, id := make_author 4 }

/-- An envelope that names the bad envelope as its causal dependency. -/
def c1dep : SignedOp :=
  { author := make_author 2, signed_digest := make_author 8, inner := c1innerDep,
    depends_on := [make_author 7] }

/-- A root state with the dependent already parked under the bad
envelope's digest. -/
def c1base : BaseCrdt (List Op) :=
  { id := make_author 1, doc := [], received := [],
    message_q := [(make_author 7, [c1dep])] }

/-- C1: integrity failures are *not* atomic at the document root.  The
`ErrDigestMismatch` path is atomic as claimed: a failed signature check
returns early leaving the state untouched.  But on the `ErrHashMismatch`
path the claim fails: `BaseCRDT::apply` runs `received.insert` and the
dependent release *unconditionally after* `doc.apply`, so an envelope
whose inner op fails hash validation still has its digest added to the
received set, and its queued dependent is popped and applied to the doc. -/
theorem c1_integrity_failure_not_atomic :
    (∀ (D : Type) (applyD : D → Op → OpState × D) (verify : SignedOp → Bool)
        (s : BaseCrdt D) (e : SignedOp), verify e = false →
        BaseCrdt.apply verify applyD s e = (.ErrDigestMismatch, s)) ∧
    (c1base.apply c1verify c1applyD c1bad).1 = .ErrHashMismatch ∧
    ((c1base.apply c1verify c1applyD c1bad).2).received
      = [c1dep.signed_digest, c1bad.signed_digest] ∧
    ((c1base.apply c1verify c1applyD c1bad).2).doc = [c1bad.inner, c1dep.inner] ∧
    ((c1base.apply c1verify c1applyD c1bad).2).message_q = [] := by
  refine ⟨?_, ?_, ?_, ?_, ?_⟩
  · intro D applyD verify s e hv
    simp [BaseCrdt.apply, baseApplyStatus, applyBaseW, hv]
  all_goals
    simp +decide [BaseCrdt.apply, baseApplyStatus, applyBaseW, c1base, c1verify, c1applyD,
      c1bad, c1dep, c1innerBad, c1innerDep, firstMissing, recInsert, qPop]

/-- Closed instance of the digest-mismatch conjunct: a rejected signature
leaves the state untouched. -/
theorem c1_integrity_failure_not_atomic_witness :
    BaseCrdt.apply (fun _ => false) c1applyD c1base c1bad = (.ErrDigestMismatch, c1base) :=
  c1_integrity_failure_not_atomic.1 (List Op) c1applyD (fun _ => false) c1base c1bad rfl

/-! ## C7: causal delivery order -/

/-- The doc node used for tracing: a log that records, in order, every
inner op `BaseCRDT::apply` forwards to `doc.apply`. -/
def c7applyD : List Op → Op → OpState × List Op := fun l op => (.Ok, l ++ [op])

/-- Digest honesty for the pair `(A, B)`: an envelope carrying `B`'s
inner op carries `A`'s digest in its dependency list, and only envelopes
carrying `A`'s inner op carry `A`'s digest (SHA-256 collision-freedom of
the signed digest). -/
def econd (A B e : SignedOp) : Prop :=
  (e.inner = B.inner → A.signed_digest ∈ e.depends_on) ∧
  (e.signed_digest = A.signed_digest → e.inner = A.inner)

/-- Every envelope parked in the pending queue satisfies `econd`. -/
def qcond (A B : SignedOp) (q : AList SigDigest SignedOp) : Prop :=
  ∀ kl ∈ q, ∀ e ∈ kl.2, econd A B e

/-- Every occurrence of `B`'s inner op in the apply log is preceded by an
occurrence of `A`'s inner op. -/
def prec7 (A B : SignedOp) (l : List Op) : Prop :=
  ∀ j : Nat, l[j]? = some B.inner → ∃ i : Nat, i < j ∧ l[i]? = some A.inner

/-- The causal-delivery invariant: `A`'s digest is received only after
`A`'s inner op reached the doc, `B` is never applied unpreceded, and the
queue is honest. -/
def c7inv (A B : SignedOp) (s : BaseCrdt (List Op)) : Prop :=
  (A.signed_digest ∈ s.received → A.inner ∈ s.doc) ∧ prec7 A B s.doc ∧
    qcond A B s.message_q

/-- A whole session: the states a replica passes through applying a list
of envelopes in order, starting from the given state. -/
def applyTrace (verify : SignedOp → Bool) (es : List SignedOp)
    (s : BaseCrdt (List Op)) : BaseCrdt (List Op) :=
  es.foldl (fun t e => (BaseCrdt.apply verify c7applyD t e).2) s

/-- The empty document root. -/
def c7init : BaseCrdt (List Op) :=
  { id := make_author 1, doc := [], received := [], message_q := [] }

theorem recInsert_mem (received : List SigDigest) (d x : SigDigest) :
    x ∈ recInsert received d ↔ x = d ∨ x ∈ received := by
  by_cases h : d ∈ received
  · simp only [recInsert, if_pos h]
    constructor
    · exact Or.inr
    · rintro (rfl | hx)
      · exact h
      · exact hx
  · simp [recInsert, if_neg h]

theorem firstMissing_none {deps received : List SigDigest}
    (h : firstMissing deps received = none) : ∀ d ∈ deps, d ∈ received := by
  intro d hd
  have := List.find?_eq_none.mp h d hd
  simpa using this

theorem firstMissing_isSome_of_missing {deps received : List SigDigest} {d : SigDigest}
    (hd : d ∈ deps) (hm : d ∉ received) :
    ∃ d', firstMissing deps received = some d' := by
  rcases h : firstMissing deps received with _ | d'
  · exact absurd (firstMissing_none h d hd) hm
  · exact ⟨d', rfl⟩

theorem qPush_qcond {A B : SignedOp} {q : AList SigDigest SignedOp}
    (hq : qcond A B q) {e : SignedOp} (he : econd A B e) (k : SigDigest) :
    qcond A B (qPush q k e) := by
  induction q with
  | nil =>
      intro kl hkl x hx
      simp [qPush] at hkl
      subst hkl
      simp at hx
      subst hx
      exact he
  | cons f rest ih =>
      have hrest : qcond A B rest := fun kl hkl => hq kl (List.mem_cons_of_mem _ hkl)
      intro kl hkl x hx
      by_cases hfk : f.1 = k
      · simp only [qPush, if_pos hfk] at hkl
        rcases List.mem_cons.mp hkl with rfl | hkl'
        · simp only at hx
          rcases List.mem_append.mp hx with hx' | hx'
          · exact hq f (by simp) x hx'
          · simp at hx'
            subst hx'
            exact he
        · exact hrest kl hkl' x hx
      · simp only [qPush, if_neg hfk] at hkl
        rcases List.mem_cons.mp hkl with rfl | hkl'
        · exact hq kl (by simp) x hx
        · exact ih hrest kl hkl' x hx

theorem qPop_rest_mem {q : AList SigDigest SignedOp} {k : SigDigest}
    {kl : SigDigest × List SignedOp} (h : kl ∈ (qPop q k).2) : kl ∈ q := by
  induction q with
  | nil => simpa [qPop] using h
  | cons f rest ih =>
      by_cases hfk : f.1 = k
      · simp only [qPop, if_pos hfk] at h
        exact List.mem_cons_of_mem _ h
      · simp only [qPop, if_neg hfk] at h
        rcases List.mem_cons.mp h with rfl | h'
        · simp
        · exact List.mem_cons_of_mem _ (ih h')

theorem qPop_found_cond {A B : SignedOp} {q : AList SigDigest SignedOp}
    (hq : qcond A B q) (k : SigDigest) :
    ∀ e ∈ ((qPop q k).1.getD []), econd A B e := by
  induction q with
  | nil => simp [qPop]
  | cons f rest ih =>
      have hrest : qcond A B rest := fun kl hkl => hq kl (List.mem_cons_of_mem _ hkl)
      by_cases hfk : f.1 = k
      · simp only [qPop, if_pos hfk, Option.getD_some]
        exact fun e he => hq f (by simp) e he
      · simp only [qPop, if_neg hfk]
        exact ih hrest

theorem prec7_append {A B : SignedOp} {l : List Op} (hp : prec7 A B l) (x : Op)
    (hx : x = B.inner → A.inner ∈ l) : prec7 A B (l ++ [x]) := by
  unfold prec7 at hp ⊢
  intro j hj
  rcases Nat.lt_trichotomy j l.length with hlt | heq | hgt
  · rw [List.getElem?_append_left hlt] at hj
    obtain ⟨i, hi1, hi2⟩ := hp j hj
    exact ⟨i, hi1, by rw [List.getElem?_append_left (by omega)]; exact hi2⟩
  · subst heq
    have : x = B.inner := by
      rw [List.getElem?_append_right (Nat.le_refl l.length)] at hj
      simpa using hj
    obtain ⟨i, hi⟩ := List.mem_iff_getElem?.mp (hx this)
    have hilen : i < l.length := by
      have := List.getElem?_eq_some.mp hi
      exact this.1
    exact ⟨i, hilen, by rw [List.getElem?_append_left hilen]; exact hi⟩
  · rw [List.getElem?_eq_none (by simp; omega)] at hj
    cases hj

/-- The causal-delivery invariant is preserved by the whole worklist
machine of `BaseCRDT::apply`, provided every worklist envelope is
digest-honest for `(A, B)`. -/
theorem applyBaseW_c7inv (verify : SignedOp → Bool) (A B : SignedOp)
    (s : BaseCrdt (List Op)) (wl : List SignedOp) :
    (∀ e ∈ wl, econd A B e) → c7inv A B s →
    c7inv A B (applyBaseW verify c7applyD s wl) := by
  induction s, wl using applyBaseW.induct verify c7applyD with
  | case1 s =>
      intro _ hs
      simpa [applyBaseW] using hs
  | case2 s e rest hv ih =>
      intro hwl hs
      rw [applyBaseW, if_pos hv]
      exact ih (fun x hx => hwl x (List.mem_cons_of_mem _ hx)) hs
  | case3 s e rest hv origin hm ih =>
      intro hwl hs
      rw [applyBaseW, if_neg hv]
      simp only [hm]
      refine ih (fun x hx => hwl x (List.mem_cons_of_mem _ hx)) ?_
      obtain ⟨h1, h2, h3⟩ := hs
      exact ⟨h1, h2, qPush_qcond h3 (hwl e (by simp)) origin⟩
  | case4 s e rest hv hm doc' popped ih =>
      intro hwl hs
      rw [applyBaseW, if_neg hv]
      simp only [hm]
      obtain ⟨h1, h2, h3⟩ := hs
      have hecond : econd A B e := hwl e (by simp)
      have hdoc : (c7applyD s.doc e.inner).2 = s.doc ++ [e.inner] := rfl
      refine ih ?_ ?_
      · intro x hx
        rcases List.mem_append.mp hx with hx' | hx'
        · exact qPop_found_cond h3 e.signed_digest x hx'
        · exact hwl x (List.mem_cons_of_mem _ hx')
      · refine ⟨?_, ?_, ?_⟩
        · intro hA
          show A.inner ∈ s.doc ++ [e.inner]
          rcases (recInsert_mem s.received e.signed_digest A.signed_digest).mp hA with
            heq | hmem
          · have he' : e.inner = A.inner := hecond.2 heq.symm
            rw [← he']
            simp
          · exact List.mem_append_left _ (h1 hmem)
        · show prec7 A B (s.doc ++ [e.inner])
          exact prec7_append h2 e.inner
            (fun hBe => h1 (firstMissing_none hm A.signed_digest (hecond.1 hBe)))
        · show qcond A B (qPop s.message_q e.signed_digest).2
          exact fun kl hkl => h3 kl (qPop_rest_mem hkl)

/-- C7: causal delivery.  For envelopes `A` and `B` with `A`'s signed
digest in `B.depends_on`: (1) while `A`'s digest has not been received,
`apply(B)` returns `MissingCausalDependencies` and only parks `B` in the
pending queue, leaving doc and received set untouched; (2) in every
session — any list of envelopes applied in order to a fresh root, honest
about digests for `(A, B)` — every occurrence of `B`'s inner op in the
doc's apply log is preceded by an occurrence of `A`'s inner op, so `B` is
never applied to the document before `A`. -/
theorem c7_causal_delivery (verify : SignedOp → Bool) (A B : SignedOp)
    (hAB : A.signed_digest ∈ B.depends_on) :
    (∀ (s : BaseCrdt (List Op)), verify B = true →
        A.signed_digest ∉ s.received →
        ∃ d, firstMissing B.depends_on s.received = some d ∧
          BaseCrdt.apply verify c7applyD s B =
            (.MissingCausalDependencies,
              { s with message_q := qPush s.message_q d B })) ∧
    (∀ es : List SignedOp, (∀ e ∈ es, econd A B e) →
        ∀ j : Nat, ((applyTrace verify es c7init).doc)[j]? = some B.inner →
          ∃ i : Nat, i < j ∧ ((applyTrace verify es c7init).doc)[i]? = some A.inner) := by
  constructor
  · intro s hvB hmiss
    obtain ⟨d, hd⟩ := firstMissing_isSome_of_missing hAB hmiss
    refine ⟨d, hd, ?_⟩
    simp [BaseCrdt.apply, baseApplyStatus, applyBaseW, hvB, hd]
  · intro es hes
    have hinit : c7inv A B c7init := by
      refine ⟨?_, ?_, ?_⟩ <;> simp [c7init, prec7, qcond]
    have hfold : ∀ (l : List SignedOp) (t : BaseCrdt (List Op)),
        (∀ e ∈ l, econd A B e) → c7inv A B t → c7inv A B (applyTrace verify l t) := by
      intro l
      induction l with
      | nil => exact fun t _ ht => ht
      | cons e l ih =>
          intro t hl ht
          have hstep : c7inv A B ((BaseCrdt.apply verify c7applyD t e).2) :=
            applyBaseW_c7inv verify A B t [e]
              (by
                intro x hx
                simp at hx
                subst hx
                exact hl _ (by simp))
              ht
          exact ih _ (fun x hx => hl x (List.mem_cons_of_mem _ hx)) hstep
    exact (hfold es c7init hes hinit).2.1

/-! Concrete envelopes for the causal-delivery witness: `c7B` depends on
`c7A`, and applying `[c7B, c7A]` parks `B`, then releases it after `A`. -/

def c7opA : Op :=
  { origin := ROOT_ID, author := make_author 2, seq := 1,
    content := some (.String "a"), path := [], is_deleted := false, id := make_author 3 }

def c7opB : Op :=
  { origin := ROOT_ID, author := make_author 2, seq := 2,
    content := some (.String "b"), path := [], is_deleted := false, id := make_author 4 }

def c7A : SignedOp :=
  { author := make_author 2, signed_digest := make_author 7, inner := c7opA,
    depends_on := [] }

def c7B : SignedOp :=
  { author := make_author 2, signed_digest := make_author 8, inner := c7opB,
    depends_on := [make_author 7] }

/-- Closed instance: on the fresh root, `apply(c7B)` parks and reports
the missing dependency, and in the session `[c7B, c7A]` the doc log holds
`A`'s inner op before `B`'s. -/
theorem c7_causal_delivery_witness :
    (∃ d, firstMissing c7B.depends_on c7init.received = some d ∧
        BaseCrdt.apply (fun _ => true) c7applyD c7init c7B =
          (.MissingCausalDependencies,
            { c7init with message_q := qPush c7init.message_q d c7B })) ∧
    (∃ i : Nat, i < 1 ∧
        ((applyTrace (fun _ => true) [c7B, c7A] c7init).doc)[i]? = some c7A.inner) := by
  have hAB : c7A.signed_digest ∈ c7B.depends_on := by decide
  constructor
  · exact (c7_causal_delivery (fun _ => true) c7A c7B hAB).1 c7init rfl (by decide)
  · refine (c7_causal_delivery (fun _ => true) c7A c7B hAB).2 [c7B, c7A] ?_ 1 ?_
    · intro e he
      rcases List.mem_cons.mp he with rfl | he'
      · exact ⟨fun _ => by decide, fun h => absurd h (by decide)⟩
      · rcases List.mem_cons.mp he' with rfl | he''
        · exact ⟨fun h => absurd (congrArg (fun o => o.seq) h) (by decide), fun _ => rfl⟩
        · simp at he''
    · show ((applyTrace (fun _ => true) [c7B, c7A] c7init).doc)[1]? = some c7B.inner
      simp +decide [applyTrace, BaseCrdt.apply, applyBaseW, baseApplyStatus, c7init,
        c7A, c7B, c7opA, c7opB, firstMissing, recInsert, qPush, qPop, c7applyD]

/-! ## C3: commutativity modulo dependencies

The derived `Ord` on author ids is a strict total order; on distinct
`(seq, author)` pairs the tie-break order used by both CRDTs is total. -/

theorem bytesLt_cons_iff (x y : Nat) (xs ys : List Nat) :
    bytesLt (x :: xs) (y :: ys) = true ↔ x < y ∨ (x = y ∧ bytesLt xs ys = true) := by
  simp only [bytesLt]
  by_cases h1 : x < y
  · simp only [if_pos h1]
    constructor
    · intro _; exact Or.inl h1
    · intro _; trivial
  · by_cases h2 : y < x
    · simp only [if_neg h1, if_pos h2]
      constructor
      · intro h; cases h
      · intro h
        rcases h with h | ⟨h, _⟩
        · omega
        · omega
    · have hxy : x = y := by omega
      simp only [if_neg h1, if_neg h2]
      constructor
      · intro h; exact Or.inr ⟨hxy, h⟩
      · intro h
        rcases h with h | ⟨_, h⟩
        · omega
        · exact h

theorem bytesLt_trans {a b c : List Nat} (h1 : bytesLt a b = true)
    (h2 : bytesLt b c = true) : bytesLt a c = true := by
  induction a generalizing b c with
  | nil =>
      cases b with
      | nil => simp [bytesLt] at h1
      | cons y ys =>
          cases c with
          | nil => simp [bytesLt] at h2
          | cons z zs => rfl
  | cons x xs ih =>
      cases b with
      | nil => simp [bytesLt] at h1
      | cons y ys =>
          cases c with
          | nil => simp [bytesLt] at h2
          | cons z zs =>
              rw [bytesLt_cons_iff] at h1 h2 ⊢
              rcases h1 with h1 | ⟨h1, h1b⟩
              · rcases h2 with h2 | ⟨h2, _⟩
                · exact Or.inl (by omega)
                · exact Or.inl (by omega)
              · rcases h2 with h2 | ⟨h2, h2b⟩
                · exact Or.inl (by omega)
                · exact Or.inr ⟨by omega, ih h1b h2b⟩

theorem bytesLt_trichotomy (a b : List Nat) :
    bytesLt a b = true ∨ bytesLt b a = true ∨ a = b := by
  induction a generalizing b with
  | nil =>
      cases b with
      | nil => right; right; rfl
      | cons y ys => left; rfl
  | cons x xs ih =>
      cases b with
      | nil => right; left; rfl
      | cons y ys =>
          rcases Nat.lt_trichotomy x y with h | h | h
          · left
            rw [bytesLt_cons_iff]
            exact Or.inl h
          · subst h
            rcases ih ys with h' | h' | h'
            · left
              rw [bytesLt_cons_iff]
              exact Or.inr ⟨rfl, h'⟩
            · right; left
              rw [bytesLt_cons_iff]
              exact Or.inr ⟨rfl, h'⟩
            · subst h'
              right; right; rfl
          · right; left
            rw [bytesLt_cons_iff]
            exact Or.inl h

/-- The sibling order both CRDTs tie-break with: `x` goes before `e` when
`e` has a smaller seq, or an equal seq and a lexicographically smaller
author.  (This is the condition under which the integration scan of `x`
breaks at a sibling `e`, and the register replaces `e`'s author.) -/
def opBeats (x e : Op) : Bool :=
  decide (e.seq < x.seq) || (decide (e.seq = x.seq) && bytesLt e.author x.author)

theorem opBeats_asymm {x y : Op} (h : opBeats x y = true) : opBeats y x = false := by
  simp only [opBeats, Bool.or_eq_true, Bool.and_eq_true, decide_eq_true_eq] at h ⊢
  rcases h with h | ⟨h1, h2⟩
  · simp only [Bool.or_eq_false_iff, Bool.and_eq_false_iff]
    constructor
    · simp; omega
    · left; simp; omega
  · simp only [Bool.or_eq_false_iff, Bool.and_eq_false_iff]
    constructor
    · simp; omega
    · right; exact bytesLt_asymm h2

theorem opBeats_trans {x y z : Op} (h1 : opBeats x y = true)
    (h2 : opBeats y z = true) : opBeats x z = true := by
  simp only [opBeats, Bool.or_eq_true, Bool.and_eq_true, decide_eq_true_eq] at h1 h2 ⊢
  rcases h1 with h1 | ⟨h1a, h1b⟩
  · rcases h2 with h2 | ⟨h2a, h2b⟩
    · left; omega
    · left; omega
  · rcases h2 with h2 | ⟨h2a, h2b⟩
    · left; omega
    · right
      exact ⟨by omega, bytesLt_trans h2b h1b⟩

theorem opBeats_total {x y : Op} (hne : x.seq ≠ y.seq ∨ x.author ≠ y.author) :
    opBeats x y = true ∨ opBeats y x = true := by
  simp only [opBeats, Bool.or_eq_true, Bool.and_eq_true, decide_eq_true_eq]
  rcases Nat.lt_trichotomy x.seq y.seq with h | h | h
  · right; left; omega
  · rcases bytesLt_trichotomy x.author y.author with h' | h' | h'
    · right; right; exact ⟨by omega, h'⟩
    · left; right; exact ⟨by omega, h'⟩
    · rcases hne with hne | hne
      · omega
      · exact absurd h' hne
  · left; left; omega

/-- A hash-invalid op leaves the register untouched. -/
theorem apply_invalidCase (sha : List Char → OpId) (s : LwwRegisterCrdt) (op : Op)
    (hv : ¬ op.is_valid_hash sha = true) :
    s.apply sha op = (.ErrHashMismatch, s) := by
  simp [LwwRegisterCrdt.apply, hv]

/-- The keep branch of the register, combined: not-newer seq and no
tie-break win leave the register unchanged. -/
theorem apply_keepCase (sha : List Char → OpId) (s : LwwRegisterCrdt) (op : Op)
    (hv : op.is_valid_hash sha = true) (h : ¬ s.our_seq < op.seq)
    (h2 : op.seq = s.our_seq → bytesLt op.author s.value.author = false) :
    s.apply sha op = (.Ok, s) := by
  by_cases he : op.seq = s.our_seq
  · exact apply_eqGeCase sha s op hv he (h2 he)
  · have hlt : op.seq < s.our_seq := by omega
    have h1' : ¬ s.our_seq < op.seq := by omega
    have hmax : max s.our_seq op.seq = s.our_seq := Nat.max_eq_left (Nat.le_of_lt hlt)
    simp only [LwwRegisterCrdt.apply, hv, Bool.not_true, Bool.false_eq_true, if_false,
      if_neg h1', if_neg he, hmax]

/-- The replace branch of the register, combined: a newer seq or a
tie-break win installs the op's fields under the register's id. -/
theorem apply_replCase (sha : List Char → OpId) (s : LwwRegisterCrdt) (op : Op)
    (hv : op.is_valid_hash sha = true)
    (h : s.our_seq < op.seq ∨
      (op.seq = s.our_seq ∧ bytesLt op.author s.value.author = true)) :
    s.apply sha op =
      (.Ok, { s with value := { op with id := s.value.id },
                     our_seq := max s.our_seq op.seq }) := by
  rcases h with h | ⟨h1, h2⟩
  · exact apply_gtCase sha s op hv h
  · have h3 : max s.our_seq op.seq = s.our_seq := by omega
    rw [apply_eqLtCase sha s op hv h1 h2, h3]

/-- State-level forms of the three branch lemmas. -/

theorem apply_invalid2 (sha : List Char → OpId) (s : LwwRegisterCrdt) (op : Op)
    (hv : ¬ op.is_valid_hash sha = true) : (s.apply sha op).2 = s := by
  rw [apply_invalidCase sha s op hv]

theorem apply_keep2 (sha : List Char → OpId) (s : LwwRegisterCrdt) (op : Op)
    (hv : op.is_valid_hash sha = true) (h : ¬ s.our_seq < op.seq)
    (h2 : op.seq = s.our_seq → bytesLt op.author s.value.author = false) :
    (s.apply sha op).2 = s := by
  rw [apply_keepCase sha s op hv h h2]

theorem apply_repl2 (sha : List Char → OpId) (s : LwwRegisterCrdt) (op : Op)
    (hv : op.is_valid_hash sha = true)
    (h : s.our_seq < op.seq ∨
      (op.seq = s.our_seq ∧ bytesLt op.author s.value.author = true)) :
    (s.apply sha op).2 = { s with value := { op with id := s.value.id },
                                  our_seq := max s.our_seq op.seq } := by
  rw [apply_replCase sha s op hv h]

/-- The register's merge commutes for two ops with distinct `(seq,
author)` pairs, from *any* register state: both application orders end in
the same full state. -/
theorem lww_apply_comm (sha : List Char → OpId) (s : LwwRegisterCrdt) (a b : Op)
    (hab : a.seq ≠ b.seq ∨ a.author ≠ b.author) :
    ((s.apply sha a).2.apply sha b).2 = ((s.apply sha b).2.apply sha a).2 := by
  by_cases hva : a.is_valid_hash sha = true
  · by_cases hvb : b.is_valid_hash sha = true
    · by_cases hCa : s.our_seq < a.seq ∨
        (a.seq = s.our_seq ∧ bytesLt a.author s.value.author = true)
      · by_cases hCb : s.our_seq < b.seq ∨
          (b.seq = s.our_seq ∧ bytesLt b.author s.value.author = true)
        · -- both beat the current value: the one beating the other survives
          rw [apply_repl2 sha s a hva hCa, apply_repl2 sha s b hvb hCb]
          rcases Nat.lt_trichotomy a.seq b.seq with hs | hs | hs
          · -- b carries the larger seq and wins both orders
            have hqb : s.our_seq < b.seq := by
              rcases hCb with h | ⟨h1, _⟩
              · exact h
              · rcases hCa with h' | ⟨h', _⟩ <;> omega
            rw [apply_repl2 sha _ b hvb (Or.inl (by simp; omega))]
            rw [apply_keep2 sha _ a hva (by simp; omega) (fun h => by simp at h; omega)]
            have hmax : max (max s.our_seq a.seq) b.seq = max s.our_seq b.seq := by omega
            simp [hmax]
          · -- equal seqs: the lower author wins both orders
            have hane : a.author ≠ b.author := by
              rcases hab with h | h
              · omega
              · exact h
            have hqa : max s.our_seq a.seq = a.seq := by
              rcases hCa with h | ⟨h1, _⟩ <;> omega
            have hqb : max s.our_seq b.seq = b.seq := by
              rcases hCb with h | ⟨h1, _⟩ <;> omega
            rcases bytesLt_trichotomy a.author b.author with hw | hw | hw
            · -- a's author is lower: a survives
              rw [apply_keep2 sha _ b hvb (by simp; omega)
                (fun _ => by simpa using bytesLt_asymm hw)]
              rw [apply_repl2 sha _ a hva (Or.inr (by simp; exact ⟨by omega, hw⟩))]
              have hmax : max (max s.our_seq b.seq) a.seq = max s.our_seq a.seq := by omega
              simp [hmax]
            · -- b's author is lower: b survives
              rw [apply_repl2 sha _ b hvb (Or.inr (by simp; exact ⟨by omega, hw⟩))]
              rw [apply_keep2 sha _ a hva (by simp; omega)
                (fun _ => by simpa using bytesLt_asymm hw)]
              have hmax : max (max s.our_seq a.seq) b.seq = max s.our_seq b.seq := by omega
              simp [hmax]
            · exact absurd hw hane
          · -- a carries the larger seq and wins both orders
            have hqa : s.our_seq < a.seq := by
              rcases hCa with h | ⟨h1, _⟩
              · exact h
              · rcases hCb with h' | ⟨h', _⟩ <;> omega
            rw [apply_keep2 sha _ b hvb (by simp; omega) (fun h => by simp at h; omega)]
            rw [apply_repl2 sha _ a hva (Or.inl (by simp; omega))]
            have hmax : max (max s.our_seq b.seq) a.seq = max s.our_seq a.seq := by omega
            simp [hmax]
        · -- only a beats the current value: a survives both orders
          have h1 : ¬ s.our_seq < b.seq := fun h => hCb (Or.inl h)
          have h2 : b.seq = s.our_seq → bytesLt b.author s.value.author = false := by
            intro hq
            cases hbl : bytesLt b.author s.value.author
            · rfl
            · exact absurd (Or.inr ⟨hq, hbl⟩) hCb
          have hSA : (s.apply sha a).2 =
              { s with value := ({ a with id := s.value.id }),
                       our_seq := (max s.our_seq a.seq) } := apply_repl2 sha s a hva hCa
          rw [hSA, apply_keep2 sha s b hvb h1 h2, hSA]
          refine apply_keep2 sha _ b hvb ?_ ?_
          · show ¬ max s.our_seq a.seq < b.seq
            omega
          · show b.seq = max s.our_seq a.seq → bytesLt b.author a.author = false
            intro hq
            rcases hCa with h | ⟨hq', hlt⟩
            · omega
            · have hqq : b.seq = s.our_seq := by omega
              cases hbl : bytesLt b.author a.author
              · rfl
              · have hfalse := h2 hqq
                have htrue := bytesLt_trans hbl hlt
                simp [htrue] at hfalse
      · by_cases hCb : s.our_seq < b.seq ∨
          (b.seq = s.our_seq ∧ bytesLt b.author s.value.author = true)
        · -- only b beats the current value: b survives both orders
          have h1 : ¬ s.our_seq < a.seq := fun h => hCa (Or.inl h)
          have h2 : a.seq = s.our_seq → bytesLt a.author s.value.author = false := by
            intro hq
            cases hbl : bytesLt a.author s.value.author
            · rfl
            · exact absurd (Or.inr ⟨hq, hbl⟩) hCa
          have hSB : (s.apply sha b).2 =
              { s with value := ({ b with id := s.value.id }),
                       our_seq := (max s.our_seq b.seq) } := apply_repl2 sha s b hvb hCb
          rw [apply_keep2 sha s a hva h1 h2, hSB]
          refine (apply_keep2 sha _ a hva ?_ ?_).symm
          · show ¬ max s.our_seq b.seq < a.seq
            omega
          · show a.seq = max s.our_seq b.seq → bytesLt a.author b.author = false
            intro hq
            rcases hCb with h | ⟨hq', hlt⟩
            · omega
            · have hqq : a.seq = s.our_seq := by omega
              cases hbl : bytesLt a.author b.author
              · rfl
              · have hfalse := h2 hqq
                have htrue := bytesLt_trans hbl hlt
                simp [htrue] at hfalse
        · -- neither beats the current value: state unchanged both orders
          have ha1 : ¬ s.our_seq < a.seq := fun h => hCa (Or.inl h)
          have ha2 : a.seq = s.our_seq → bytesLt a.author s.value.author = false := by
            intro hq
            cases hbl : bytesLt a.author s.value.author
            · rfl
            · exact absurd (Or.inr ⟨hq, hbl⟩) hCa
          have hb1 : ¬ s.our_seq < b.seq := fun h => hCb (Or.inl h)
          have hb2 : b.seq = s.our_seq → bytesLt b.author s.value.author = false := by
            intro hq
            cases hbl : bytesLt b.author s.value.author
            · rfl
            · exact absurd (Or.inr ⟨hq, hbl⟩) hCb
          rw [apply_keep2 sha s a hva ha1 ha2, apply_keep2 sha s b hvb hb1 hb2,
            apply_keep2 sha s a hva ha1 ha2]
    · rw [apply_invalid2 sha s b hvb, apply_invalid2 sha _ b hvb]
  · rw [apply_invalid2 sha s a hva, apply_invalid2 sha _ a hva]

/-! The integration scan characterized elementwise: at each scanned
element the scan either continues or breaks, depending only on that
element's parent position and `(seq, author)` pair. -/

/-- The scan of `n` (parent at `p`) walks past `e`. -/
def contAt (ops : List Op) (n : Op) (p : Nat) (e : Op) : Prop :=
  ∃ q, findIdxOp ops e.origin = some q ∧ ¬ e.id = n.id ∧
    (p < q ∨ (q = p ∧ opBeats n e = false))

/-- The scan of `n` (parent at `p`) stops in front of `e`. -/
def breakAt (ops : List Op) (n : Op) (p : Nat) (e : Op) : Prop :=
  ∃ q, findIdxOp ops e.origin = some q ∧ ¬ e.id = n.id ∧
    (q < p ∨ (q = p ∧ opBeats n e = true))

/-- Position transport along an insertion at `i`. -/
def trMap (i t : Nat) : Nat := if t < i then t else t + 1

theorem trMap_lt_iff (i t u : Nat) : trMap i t < trMap i u ↔ t < u := by
  simp only [trMap]
  split <;> split <;> omega

theorem trMap_eq_iff (i t u : Nat) : trMap i t = trMap i u ↔ t = u := by
  simp only [trMap]
  split <;> split <;> omega

theorem findIdxOp_insertIdx_tr {ops : List Op} {x : OpId} {q : Nat} (a : Op) (i : Nat)
    (h : findIdxOp ops x = some q) (hax : ¬ a.id = x) :
    findIdxOp (ops.insertIdx i a) x = some (trMap i q) := by
  by_cases hq : q < i
  · rw [findIdxOp_insertIdx_lt a i h hq]
    simp [trMap, hq]
  · rw [findIdxOp_insertIdx_ge a i h (by omega) hax]
    simp [trMap, hq]

/-- The origin of an element with a known parent position is never the
id of a fresh op. -/
theorem origin_ne_fresh {ops : List Op} {x : OpId} {q : Nat} {a : Op}
    (h : findIdxOp ops x = some q) (hfa : ∀ o ∈ ops, ¬ o.id = a.id) :
    ¬ a.id = x := by
  obtain ⟨e, he, hid⟩ := findIdxOp_id h
  intro hcontra
  exact hfa e (List.getElem?_mem he) (by rw [hid, ← hcontra])

theorem contAt_insertIdx {ops : List Op} {n : Op} {p : Nat} {e : Op} (a : Op) (i : Nat)
    (hfa : ∀ o ∈ ops, ¬ o.id = a.id)
    (hc : contAt ops n p e) : contAt (ops.insertIdx i a) n (trMap i p) e := by
  obtain ⟨q, hq, hid, hcmp⟩ := hc
  refine ⟨trMap i q, findIdxOp_insertIdx_tr a i hq (origin_ne_fresh hq hfa), hid, ?_⟩
  rcases hcmp with h | ⟨h, hb⟩
  · exact Or.inl ((trMap_lt_iff i p q).mpr h)
  · exact Or.inr ⟨(trMap_eq_iff i q p).mpr h, hb⟩

theorem breakAt_insertIdx {ops : List Op} {n : Op} {p : Nat} {e : Op} (a : Op) (i : Nat)
    (hfa : ∀ o ∈ ops, ¬ o.id = a.id)
    (hc : breakAt ops n p e) : breakAt (ops.insertIdx i a) n (trMap i p) e := by
  obtain ⟨q, hq, hid, hcmp⟩ := hc
  refine ⟨trMap i q, findIdxOp_insertIdx_tr a i hq (origin_ne_fresh hq hfa), hid, ?_⟩
  rcases hcmp with h | ⟨h, hb⟩
  · exact Or.inl ((trMap_lt_iff i q p).mpr h)
  · exact Or.inr ⟨(trMap_eq_iff i q p).mpr h, hb⟩

theorem getElem?_insertIdx_self {α : Type} :
    ∀ (l : List α) (a : α) (i : Nat), i ≤ l.length → (l.insertIdx i a)[i]? = some a := by
  intro l
  induction l with
  | nil =>
      intro a i h
      have : i = 0 := by simpa using h
      subst this
      rfl
  | cons x xs ih =>
      intro a i h
      cases i with
      | zero => rfl
      | succ i' =>
          rw [List.insertIdx_succ_cons]
          simp only [List.getElem?_cons_succ]
          exact ih a i' (by simpa using h)

theorem getElem?_insertIdx_of_gt {α : Type} :
    ∀ (l : List α) (a : α) (i k : Nat), i < k → (l.insertIdx i a)[k]? = l[k - 1]? := by
  intro l
  induction l with
  | nil =>
      intro a i k h
      cases i with
      | zero =>
          cases k with
          | zero => omega
          | succ k' => simp [List.insertIdx_zero]
      | succ i' =>
          rw [List.insertIdx_succ_nil]
          simp
  | cons x xs ih =>
      intro a i k h
      cases i with
      | zero =>
          rw [List.insertIdx_zero]
          cases k with
          | zero => omega
          | succ k' => simp
      | succ i' =>
          rw [List.insertIdx_succ_cons]
          cases k with
          | zero => omega
          | succ k' =>
              simp only [List.getElem?_cons_succ]
              cases k' with
              | zero => omega
              | succ k'' =>
                  rw [ih a i' (k'' + 1) (by omega)]
                  simp

/-- Analysis of a scan outcome: every element strictly before the
insertion point was walked past, and the scan stops in front of the
element at the insertion point when there is one. -/
theorem scanGo_analyze (ops : List Op) (n : Op) (p : Nat) :
    ∀ (m j i : Nat), j + m = i → i ≤ ops.length →
      scanGo ops n p (ops.drop j) j = .insertAt i →
      (∀ k, j ≤ k → k < i → ∀ e, ops[k]? = some e → contAt ops n p e) ∧
      (i < ops.length → ∀ e, ops[i]? = some e → breakAt ops n p e) := by
  intro m
  induction m with
  | zero =>
      intro j i hj hi hscan
      have hij : j = i := by omega
      subst hij
      refine ⟨fun k hk1 hk2 e he => absurd (And.intro hk1 hk2) (by omega), ?_⟩
      intro hlen e he
      rw [List.drop_eq_getElem_cons hlen] at hscan
      have he' : ops[j] = e := by
        rw [List.getElem?_eq_getElem hlen] at he
        exact Option.some.inj he
      rcases hq : findIdxOp ops (ops[j]).origin with _ | q
      · simp [scanGo, hq] at hscan
      · simp only [scanGo, hq] at hscan
        by_cases hid : (ops[j]).id = n.id
        · simp [hid] at hscan
        · rw [if_neg hid] at hscan
          by_cases h1 : q < p
          · subst he'
            exact ⟨q, hq, hid, Or.inl h1⟩
          · rw [if_neg h1] at hscan
            by_cases h2 : q = p
            · rw [if_pos h2] at hscan
              by_cases h3 : (ops[j]).seq < n.seq
              · subst he'
                refine ⟨q, hq, hid, Or.inr ⟨h2, ?_⟩⟩
                simp [opBeats, h3]
              · rw [if_neg h3] at hscan
                by_cases h4 : (decide ((ops[j]).seq = n.seq) &&
                    bytesLt (ops[j]).author n.author) = true
                · subst he'
                  refine ⟨q, hq, hid, Or.inr ⟨h2, ?_⟩⟩
                  simp only [opBeats, Bool.or_eq_true]
                  exact Or.inr h4
                · rw [if_neg h4] at hscan
                  have hb := scanGo_insertAt_bounds ops n p (ops.drop (j + 1)) (j + 1) j hscan
                  omega
            · rw [if_neg h2] at hscan
              have hb := scanGo_insertAt_bounds ops n p (ops.drop (j + 1)) (j + 1) j hscan
              omega
  | succ m ih =>
      intro j i hj hi hscan
      have hji : j < i := by omega
      have hjlen : j < ops.length := by omega
      rw [List.drop_eq_getElem_cons hjlen] at hscan
      rcases hq : findIdxOp ops (ops[j]).origin with _ | q
      · simp [scanGo, hq] at hscan
      · simp only [scanGo, hq] at hscan
        by_cases hid : (ops[j]).id = n.id
        · simp [hid] at hscan
        · rw [if_neg hid] at hscan
          have hcont : contAt ops n p (ops[j]) ∧
              scanGo ops n p (ops.drop (j + 1)) (j + 1) = .insertAt i := by
            by_cases h1 : q < p
            · rw [if_pos h1] at hscan
              simp only [ScanRes.insertAt.injEq] at hscan
              omega
            · rw [if_neg h1] at hscan
              by_cases h2 : q = p
              · rw [if_pos h2] at hscan
                by_cases h3 : (ops[j]).seq < n.seq
                · rw [if_pos h3] at hscan
                  simp only [ScanRes.insertAt.injEq] at hscan
                  omega
                · rw [if_neg h3] at hscan
                  by_cases h4 : (decide ((ops[j]).seq = n.seq) &&
                      bytesLt (ops[j]).author n.author) = true
                  · rw [if_pos h4] at hscan
                    simp only [ScanRes.insertAt.injEq] at hscan
                    omega
                  · rw [if_neg h4] at hscan
                    refine ⟨⟨q, hq, hid, Or.inr ⟨h2, ?_⟩⟩, hscan⟩
                    have hb1 : decide ((ops[j]).seq < n.seq) = false := decide_eq_false h3
                    have hb2 : (decide ((ops[j]).seq = n.seq) &&
                        bytesLt (ops[j]).author n.author) = false := Bool.eq_false_iff.mpr h4
                    simp [opBeats, hb1, hb2]
              · rw [if_neg h2] at hscan
                exact ⟨⟨q, hq, hid, Or.inl (by omega)⟩, hscan⟩
          obtain ⟨hc, hrec⟩ := hcont
          obtain ⟨ih1, ih2⟩ := ih (j + 1) i (by omega) hi hrec
          refine ⟨?_, ih2⟩
          intro k hk1 hk2 e he
          rcases Nat.eq_or_lt_of_le hk1 with heq | hk1'
          · have he0 : ops[j]? = some e := heq ▸ he
            have he' : ops[j] = e := by
              rw [List.getElem?_eq_getElem hjlen] at he0
              exact Option.some.inj he0
            exact he' ▸ hc
          · exact ih1 k (by omega) hk2 e he

/-- Synthesis of a scan outcome from elementwise facts. -/
theorem scanGo_synthesize (ops : List Op) (n : Op) (p : Nat) :
    ∀ (m j i : Nat), j + m = i → i ≤ ops.length →
      (∀ k, j ≤ k → k < i → ∀ e, ops[k]? = some e → contAt ops n p e) →
      (i = ops.length ∨ (∃ e, ops[i]? = some e ∧ breakAt ops n p e)) →
      scanGo ops n p (ops.drop j) j = .insertAt i := by
  intro m
  induction m with
  | zero =>
      intro j i hj hi hcont hbr
      have hij : j = i := by omega
      subst hij
      rcases hbr with hlen | ⟨e, he, hb⟩
      · rw [List.drop_eq_nil_iff.mpr (by omega)]
        rfl
      · have hjlen : j < ops.length := by
          have := List.getElem?_eq_some.mp he
          exact this.1
        rw [List.drop_eq_getElem_cons hjlen]
        have he' : ops[j] = e := by
          rw [List.getElem?_eq_getElem hjlen] at he
          exact Option.some.inj he
        obtain ⟨q, hq, hid, hcmp⟩ := hb
        rw [← he'] at hq hid hcmp
        rcases hcmp with h1 | ⟨h2, hbeats⟩
        · simp [scanGo, hq, hid, h1]
        · have h1 : ¬ q < p := by omega
          simp only [opBeats, Bool.or_eq_true] at hbeats
          by_cases h3 : (ops[j]).seq < n.seq
          · simp [scanGo, hq, hid, h1, h2, h3]
          · have h4 : (decide ((ops[j]).seq = n.seq) &&
                bytesLt (ops[j]).author n.author) = true := by
              rcases hbeats with hb3 | hb4
              · exact absurd (of_decide_eq_true hb3) h3
              · exact hb4
            simp [scanGo, hq, hid, h1, h2, h3, h4]
  | succ m ih =>
      intro j i hj hi hcont hbr
      have hji : j < i := by omega
      have hjlen : j < ops.length := by omega
      rw [List.drop_eq_getElem_cons hjlen]
      obtain ⟨q, hq, hid, hcmp⟩ := hcont j (by omega) hji (ops[j])
        (by rw [List.getElem?_eq_getElem hjlen])
      have hrec := ih (j + 1) i (by omega) hi
        (fun k hk1 hk2 e he => hcont k (by omega) hk2 e he) hbr
      rcases hcmp with h1 | ⟨h2, hbeats⟩
      · have h1' : ¬ q < p := by omega
        have h2' : ¬ q = p := by omega
        simp [scanGo, hq, hid, h1', h2', hrec]
      · have h1' : ¬ q < p := by omega
        simp only [opBeats, Bool.or_eq_false_iff] at hbeats
        have h3 : ¬ (ops[j]).seq < n.seq := by
          have := hbeats.1
          simpa using this
        have h4 : (decide ((ops[j]).seq = n.seq) &&
            bytesLt (ops[j]).author n.author) = false := hbeats.2
        simp [scanGo, hq, hid, h1', h2, h3, h4, hrec]

/-- `scan` analyzed at its entry point. -/
theorem scan_analyze {ops : List Op} {n : Op} {p i : Nat}
    (hp : p < ops.length) (h : scan ops n p = .insertAt i) :
    p < i ∧ i ≤ ops.length ∧
    (∀ k, p < k → k < i → ∀ e, ops[k]? = some e → contAt ops n p e) ∧
    (i = ops.length ∨ ∃ e, ops[i]? = some e ∧ breakAt ops n p e) := by
  have hb := scanGo_insertAt_bounds ops n p (ops.drop (p + 1)) (p + 1) i h
  have hdl : (ops.drop (p + 1)).length = ops.length - (p + 1) := List.length_drop ..
  have hpi : p < i := by omega
  have hilen : i ≤ ops.length := by omega
  obtain ⟨h1, h2⟩ := scanGo_analyze ops n p (i - (p + 1)) (p + 1) i (by omega) hilen h
  refine ⟨hpi, hilen, fun k hk1 hk2 e he => h1 k (by omega) hk2 e he, ?_⟩
  rcases Nat.eq_or_lt_of_le hilen with heq | hlt
  · exact Or.inl heq
  · obtain ⟨e, he⟩ : ∃ e, ops[i]? = some e := by
      rw [List.getElem?_eq_getElem hlt]
      exact ⟨ops[i], rfl⟩
    exact Or.inr ⟨e, he, h2 hlt e he⟩

/-- `scan` synthesized from elementwise facts. -/
theorem scan_synthesize {ops : List Op} {n : Op} {p i : Nat}
    (hpi : p < i) (hi : i ≤ ops.length)
    (hcont : ∀ k, p < k → k < i → ∀ e, ops[k]? = some e → contAt ops n p e)
    (hbr : i = ops.length ∨ ∃ e, ops[i]? = some e ∧ breakAt ops n p e) :
    scan ops n p = .insertAt i :=
  scanGo_synthesize ops n p (i - (p + 1)) (p + 1) i (by omega) hi
    (fun k hk1 hk2 e he => hcont k (by omega) hk2 e he) hbr

/-- When a sibling decision is forced by both scans walking the same
element with the same parent, transitivity of the sibling order settles
the meeting of `b` with the freshly inserted `a`: if `a`'s scan breaks at
an element `b`'s scan walks past, then `b` does not go ahead of `a`. -/
theorem meet_cont_of_break_cont {X : List Op} {a b e : Op} {pa pb : Nat}
    (hcB : contAt X b pb e) (hbA : breakAt X a pa e) :
    pb < pa ∨ (pa = pb ∧ opBeats b a = false) := by
  obtain ⟨q, hq, _, hcmpB⟩ := hcB
  obtain ⟨q', hq', _, hcmpA⟩ := hbA
  have hqq : q' = q := Option.some.inj (hq' ▸ hq ▸ rfl)
  subst hqq
  rcases hcmpB with h1 | ⟨h2, hbe⟩
  · rcases hcmpA with h3 | ⟨h4, _⟩
    · exact Or.inl (by omega)
    · exact Or.inl (by omega)
  · rcases hcmpA with h3 | ⟨h4, hae⟩
    · exact Or.inl (by omega)
    · refine Or.inr ⟨by omega, ?_⟩
      cases hba : opBeats b a
      · rfl
      · exact absurd (opBeats_trans hba hae) (by simp [hbe])

/-- Scanning `b` after inserting `a` at the position `a`'s own scan
chose: the scan walks the transported elements, passes `a` unless `b`
goes ahead of it, and lands at the transported insertion point. -/
theorem scan_after_insert (X : List Op) (a b : Op) (pa pb ia ib : Nat)
    (hfa : ∀ o ∈ X, ¬ o.id = a.id)
    (hab_id : ¬ a.id = b.id)
    (hpa : findIdxOp X a.origin = some pa)
    (hpb : findIdxOp X b.origin = some pb)
    (hsa : scan X a pa = .insertAt ia)
    (hsb : scan X b pb = .insertAt ib) :
    scan (X.insertIdx ia a) b (trMap ia pb)
      = .insertAt (if ib < ia ∨ (ib = ia ∧
          (pa < pb ∨ (pa = pb ∧ opBeats b a = true))) then ib else ib + 1) := by
  have hpalen : pa < X.length := findIdxOp_some_lt hpa
  have hpblen : pb < X.length := findIdxOp_some_lt hpb
  obtain ⟨hpia, hialen, hcontA, hbrA⟩ := scan_analyze hpalen hsa
  obtain ⟨hpib, hiblen, hcontB, hbrB⟩ := scan_analyze hpblen hsb
  have hlen1 : (X.insertIdx ia a).length = X.length + 1 :=
    List.length_insertIdx ia X hialen
  have htrpa : trMap ia pa = pa := by simp [trMap]; omega
  rcases Nat.lt_trichotomy ib ia with hlt | heq | hgt
  · -- the earlier insertion point is untouched
    rw [if_pos (Or.inl hlt)]
    have htrpb : trMap ia pb = pb := by simp [trMap]; omega
    rw [htrpb]
    refine scan_synthesize hpib (by omega) ?_ ?_
    · intro k hk1 hk2 e he
      rw [getElem?_insertIdx_of_lt X a ia k (by omega)] at he
      have := contAt_insertIdx a ia hfa (hcontB k hk1 hk2 e he)
      rwa [htrpb] at this
    · rcases hbrB with hbl | ⟨e, he, hb⟩
      · omega
      · refine Or.inr ⟨e, ?_, ?_⟩
        · rw [getElem?_insertIdx_of_lt X a ia ib (by omega)]
          exact he
        · have := breakAt_insertIdx a ia hfa hb
          rwa [htrpb] at this
  · -- both scans chose the same spot: the sibling order decides
    have htrpb : trMap ia pb = pb := by simp [trMap]; omega
    rw [htrpb]
    by_cases hmeet : pa < pb ∨ (pa = pb ∧ opBeats b a = true)
    · rw [if_pos (Or.inr ⟨heq, hmeet⟩)]
      rw [heq]
      refine scan_synthesize (by omega) (by omega) ?_ ?_
      · intro k hk1 hk2 e he
        rw [getElem?_insertIdx_of_lt X a ia k (by omega)] at he
        have := contAt_insertIdx a ia hfa (hcontB k hk1 (by omega) e he)
        rwa [htrpb] at this
      · refine Or.inr ⟨a, getElem?_insertIdx_self X a ia hialen, ?_⟩
        refine ⟨pa, ?_, hab_id, ?_⟩
        · rw [findIdxOp_insertIdx_tr a ia hpa (origin_ne_fresh hpa hfa), htrpa]
        · exact hmeet
    · rw [if_neg (by
        intro hcase
        rcases hcase with h | ⟨_, h⟩
        · omega
        · exact hmeet h)]
      rw [heq]
      refine scan_synthesize (by omega) (by omega) ?_ ?_
      · intro k hk1 hk2 e he
        rcases Nat.lt_trichotomy k ia with hkl | hke | hkg
        · rw [getElem?_insertIdx_of_lt X a ia k hkl] at he
          have := contAt_insertIdx a ia hfa (hcontB k hk1 (by omega) e he)
          rwa [htrpb] at this
        · have hea : e = a := by
            rw [hke, getElem?_insertIdx_self X a ia hialen] at he
            exact (Option.some.inj he).symm
          rw [hea]
          refine ⟨pa, ?_, hab_id, ?_⟩
          · rw [findIdxOp_insertIdx_tr a ia hpa (origin_ne_fresh hpa hfa), htrpa]
          · by_cases hpp : pa = pb
            · refine Or.inr ⟨hpp, ?_⟩
              cases hba : opBeats b a
              · rfl
              · exact absurd (Or.inr ⟨hpp, hba⟩) hmeet
            · have : ¬ pa < pb := fun h => hmeet (Or.inl h)
              exact Or.inl (by omega)
        · omega
      · rcases hbrB with hbl | ⟨e, he, hb⟩
        · left
          omega
        · refine Or.inr ⟨e, ?_, ?_⟩
          · rw [getElem?_insertIdx_of_gt X a ia (ia + 1) (by omega)]
            simpa [heq] using he
          · have := breakAt_insertIdx a ia hfa hb
            rwa [htrpb] at this
  · -- the earlier insertion point shifts right
    rw [if_neg (by
      intro hcase
      rcases hcase with h | ⟨h, _⟩ <;> omega)]
    by_cases hpblt : pb < ia
    · have htrpb : trMap ia pb = pb := by simp [trMap]; omega
      rw [htrpb]
      refine scan_synthesize (by omega) (by omega) ?_ ?_
      · intro k hk1 hk2 e he
        rcases Nat.lt_trichotomy k ia with hkl | hke | hkg
        · rw [getElem?_insertIdx_of_lt X a ia k hkl] at he
          have := contAt_insertIdx a ia hfa (hcontB k hk1 (by omega) e he)
          rwa [htrpb] at this
        · have hea : e = a := by
            rw [hke, getElem?_insertIdx_self X a ia hialen] at he
            exact (Option.some.inj he).symm
          rw [hea]
          have hmeetc : pb < pa ∨ (pa = pb ∧ opBeats b a = false) := by
            have hX : ∃ ea, X[ia]? = some ea := by
              rw [List.getElem?_eq_getElem (by omega)]
              exact ⟨X[ia], rfl⟩
            obtain ⟨ea, hea⟩ := hX
            have hcB := hcontB ia (by omega) (by omega) ea hea
            have hbA : breakAt X a pa ea := by
              rcases hbrA with hal | ⟨ea2, hea2, hba⟩
              · omega
              · have : ea2 = ea := Option.some.inj (hea2 ▸ hea ▸ rfl)
                exact this ▸ hba
            exact meet_cont_of_break_cont hcB hbA
          refine ⟨pa, ?_, hab_id, ?_⟩
          · rw [findIdxOp_insertIdx_tr a ia hpa (origin_ne_fresh hpa hfa), htrpa]
          · rcases hmeetc with h | ⟨h1, h2⟩
            · exact Or.inl h
            · exact Or.inr ⟨h1, h2⟩
        · rw [getElem?_insertIdx_of_gt X a ia k hkg] at he
          have := contAt_insertIdx a ia hfa (hcontB (k - 1) (by omega) (by omega) e he)
          rwa [htrpb] at this
      · rcases hbrB with hbl | ⟨e, he, hb⟩
        · left
          omega
        · refine Or.inr ⟨e, ?_, ?_⟩
          · rw [getElem?_insertIdx_of_gt X a ia (ib + 1) (by omega)]
            simpa using he
          · have := breakAt_insertIdx a ia hfa hb
            rwa [htrpb] at this
    · have htrpb : trMap ia pb = pb + 1 := by simp [trMap]; omega
      rw [htrpb]
      refine scan_synthesize (by omega) (by omega) ?_ ?_
      · intro k hk1 hk2 e he
        rw [getElem?_insertIdx_of_gt X a ia k (by omega)] at he
        have := contAt_insertIdx a ia hfa (hcontB (k - 1) (by omega) (by omega) e he)
        rwa [htrpb] at this
      · rcases hbrB with hbl | ⟨e, he, hb⟩
        · left
          omega
        · refine Or.inr ⟨e, ?_, ?_⟩
          · rw [getElem?_insertIdx_of_gt X a ia (ib + 1) (by omega)]
            simpa using he
          · have := breakAt_insertIdx a ia hfa hb
            rwa [htrpb] at this

/-- The two insertions land in the same final array in either order. -/
theorem insert_pair_comm (X : List Op) (a b : Op) (pa pb ia ib : Nat)
    (hfa : ∀ o ∈ X, ¬ o.id = a.id) (hfb : ∀ o ∈ X, ¬ o.id = b.id)
    (hab_id : ¬ a.id = b.id)
    (hpair : a.seq ≠ b.seq ∨ a.author ≠ b.author)
    (hpa : findIdxOp X a.origin = some pa)
    (hpb : findIdxOp X b.origin = some pb)
    (hsa : scan X a pa = .insertAt ia)
    (hsb : scan X b pb = .insertAt ib) :
    (X.insertIdx ia a).insertIdx
        (if ib < ia ∨ (ib = ia ∧ (pa < pb ∨ (pa = pb ∧ opBeats b a = true)))
          then ib else ib + 1) b
      = (X.insertIdx ib b).insertIdx
        (if ia < ib ∨ (ia = ib ∧ (pb < pa ∨ (pb = pa ∧ opBeats a b = true)))
          then ia else ia + 1) a := by
  have hpalen : pa < X.length := findIdxOp_some_lt hpa
  have hpblen : pb < X.length := findIdxOp_some_lt hpb
  obtain ⟨hpia, hialen, _, _⟩ := scan_analyze hpalen hsa
  obtain ⟨hpib, hiblen, _, _⟩ := scan_analyze hpblen hsb
  rcases Nat.lt_trichotomy ib ia with hlt | heq | hgt
  · rw [if_pos (Or.inl hlt), if_neg (by
      intro hcase
      rcases hcase with h | ⟨h, _⟩ <;> omega)]
    exact (List.insertIdx_comm b a ib ia X (by omega) hialen).symm
  · by_cases hmB : pa < pb ∨ (pa = pb ∧ opBeats b a = true)
    · have hmA : ¬ (pb < pa ∨ (pb = pa ∧ opBeats a b = true)) := by
        rcases hmB with h | ⟨h1, h2⟩
        · intro hc
          rcases hc with h' | ⟨h', _⟩ <;> omega
        · intro hc
          rcases hc with h' | ⟨h', h2'⟩
          · omega
          · exact absurd h2' (by simp [opBeats_asymm h2])
      rw [if_pos (Or.inr ⟨heq, hmB⟩), if_neg (by
        intro hcase
        rcases hcase with h | ⟨h, hm⟩
        · omega
        · exact hmA hm)]
      rw [heq]
      exact (List.insertIdx_comm b a ia ia X (Nat.le_refl ia) hialen).symm
    · have hmA : pb < pa ∨ (pb = pa ∧ opBeats a b = true) := by
        by_cases hpp : pa = pb
        · have hba : opBeats b a = false := by
            cases hba : opBeats b a
            · rfl
            · exact absurd (Or.inr ⟨hpp, hba⟩) hmB
          rcases opBeats_total (x := a) (y := b) hpair with h | h
          · exact Or.inr ⟨hpp.symm, h⟩
          · rw [h] at hba
            cases hba
        · have : ¬ pa < pb := fun h => hmB (Or.inl h)
          exact Or.inl (by omega)
      rw [if_neg (by
        intro hcase
        rcases hcase with h | ⟨h, hm⟩
        · omega
        · exact hmB hm), if_pos (Or.inr ⟨heq.symm, hmA⟩)]
      rw [heq]
      exact List.insertIdx_comm a b ia ia X (Nat.le_refl ia) hialen
  · rw [if_neg (by
      intro hcase
      rcases hcase with h | ⟨h, _⟩ <;> omega), if_pos (Or.inl hgt)]
    exact List.insertIdx_comm a b ia ib X (by omega) hiblen

/-- Two fresh hash-valid inserts addressed to the list, with known
anchors and an empty pending queue, commute on the whole list state. -/
theorem list_insert_insert_comm (sha : List Char → OpId) (s : ListCrdt) (a b : Op)
    (oa ob : OpId) (pa pb : Nat)
    (hva : a.is_valid_hash sha = true) (hvb : b.is_valid_hash sha = true)
    (hpatha : a.path = join_path s.path (.Index oa))
    (hpathb : b.path = join_path s.path (.Index ob))
    (hda : a.is_deleted = false) (hdb : b.is_deleted = false)
    (hfa : ∀ o ∈ s.ops, ¬ o.id = a.id) (hfb : ∀ o ∈ s.ops, ¬ o.id = b.id)
    (hab_id : ¬ a.id = b.id)
    (hpair : a.seq ≠ b.seq ∨ a.author ≠ b.author)
    (hpa : findIdxOp s.ops a.origin = some pa)
    (hpb : findIdxOp s.ops b.origin = some pb)
    (horig : ∀ o ∈ s.ops, (findIdxOp s.ops o.origin).isSome = true)
    (hmq : s.message_q = []) :
    ∃ w,
      ((s.apply sha a).map (·.2)).bind (fun t => (t.apply sha b).map (·.2)) = some w ∧
      ((s.apply sha b).map (·.2)).bind (fun t => (t.apply sha a).map (·.2)) = some w := by
  obtain ⟨ia, hsa⟩ := scan_not_stuck s.ops a pa horig hfa
  obtain ⟨ib, hsb⟩ := scan_not_stuck s.ops b pb horig hfb
  have hpalen : pa < s.ops.length := findIdxOp_some_lt hpa
  have hpblen : pb < s.ops.length := findIdxOp_some_lt hpb
  obtain ⟨hpia, hialen, hA1, hA2⟩ := scan_analyze hpalen hsa
  obtain ⟨hpib, hiblen, hB1, hB2⟩ := scan_analyze hpblen hsb
  have hba_id : ¬ b.id = a.id := fun h => hab_id h.symm
  have hqa : (qPop s.message_q a.id).1 = none := by rw [hmq]; rfl
  have hqb : (qPop s.message_q b.id).1 = none := by rw [hmq]; rfl
  have hscanb1 := scan_after_insert s.ops a b pa pb ia ib hfa hab_id hpa hpb hsa hsb
  have hscana2 := scan_after_insert s.ops b a pb pa ib ia hfb hba_id hpb hpa hsb hsa
  have hops := insert_pair_comm s.ops a b pa pb ia ib hfa hfb hab_id hpair hpa hpb hsa hsb
  set jb := (if ib < ia ∨ (ib = ia ∧ (pa < pb ∨ (pa = pb ∧ opBeats b a = true)))
    then ib else ib + 1) with hjb
  set ja := (if ia < ib ∨ (ia = ib ∧ (pb < pa ∨ (pb = pa ∧ opBeats a b = true)))
    then ia else ia + 1) with hja
  have h1 := (integrate_insert_idem s a pa ia hda hpa hsa hfa hqa).1
  have h3 := (integrate_insert_idem s b pb ib hdb hpb hsb hfb hqb).1
  set S1 : ListCrdt :=
    { s with ops := s.ops.insertIdx ia a, our_seq := max s.our_seq a.seq } with hS1
  set S2 : ListCrdt :=
    { s with ops := s.ops.insertIdx ib b, our_seq := max s.our_seq b.seq } with hS2
  have hS1ops : S1.ops = s.ops.insertIdx ia a := by rw [hS1]
  have hS1path : S1.path = s.path := by rw [hS1]
  have hS1mq : S1.message_q = s.message_q := by rw [hS1]
  have hS2ops : S2.ops = s.ops.insertIdx ib b := by rw [hS2]
  have hS2path : S2.path = s.path := by rw [hS2]
  have hS2mq : S2.message_q = s.message_q := by rw [hS2]
  have hfreshb1 : ∀ o ∈ S1.ops, ¬ o.id = b.id := by
    rw [hS1ops]
    intro o ho
    rcases (List.mem_insertIdx hialen).mp ho with rfl | ho'
    · exact hab_id
    · exact hfb o ho'
  have hfresha2 : ∀ o ∈ S2.ops, ¬ o.id = a.id := by
    rw [hS2ops]
    intro o ho
    rcases (List.mem_insertIdx hiblen).mp ho with rfl | ho'
    · exact hba_id
    · exact hfa o ho'
  have h2 := (integrate_insert_idem S1 b (trMap ia pb) jb hdb
    (by rw [hS1ops]; exact findIdxOp_insertIdx_tr a ia hpb (origin_ne_fresh hpb hfa))
    (by rw [hS1ops]; exact hscanb1) hfreshb1
    (by rw [hS1mq, hmq]; rfl)).1
  have h4 := (integrate_insert_idem S2 a (trMap ib pa) ja hda
    (by rw [hS2ops]; exact findIdxOp_insertIdx_tr b ib hpa (origin_ne_fresh hpa hfb))
    (by rw [hS2ops]; exact hscana2) hfresha2
    (by rw [hS2mq, hmq]; rfl)).1
  refine ⟨{ s with
            ops := ((s.ops.insertIdx ia a).insertIdx jb b)
            our_seq := (max (max s.our_seq a.seq) b.seq) }, ?_, ?_⟩
  · rw [apply_to_integrate sha s a oa hva hpatha, h1]
    simp only [Option.map_some', Option.some_bind]
    rw [apply_to_integrate sha S1 b ob hvb (by rw [hS1path, hpathb]), h2]
    simp only [Option.map_some', hS1]
  · rw [apply_to_integrate sha s b ob hvb hpathb, h3]
    simp only [Option.map_some', Option.some_bind]
    rw [apply_to_integrate sha S2 a oa hva (by rw [hS2path, hpatha]), h4]
    simp only [Option.map_some', hS2]
    have hmax : max (max s.our_seq b.seq) a.seq = max (max s.our_seq a.seq) b.seq := by
      omega
    rw [← hops, hmax]

/-! The C3 counterexample and amended claim. -/

def c3r0 : LwwRegisterCrdt := LwwRegisterCrdt.new (make_author 1) []

def c3a : Op := Op.new sha0 ROOT_ID (make_author 2) 1 false (some (.String "x")) []

def c3b : Op := Op.new sha0 ROOT_ID (make_author 2) 1 false (some (.String "y")) []

set_option maxRecDepth 1000000 in
/-- C3 counterexample: two hash-valid ops from the same author with the
same seq but different content (a byzantine equivocation, exactly the
case the claim singles out) do *not* commute on a register: whichever
arrives first survives the tie-break, so the two orders give different
views. -/
theorem c3_counterexample :
    c3a.is_valid_hash sha0 = true ∧ c3b.is_valid_hash sha0 = true ∧
    c3a.author = c3b.author ∧ c3a.seq = c3b.seq ∧
    ((c3r0.apply sha0 c3a).2.apply sha0 c3b).2.view = some (.String "x") ∧
    ((c3r0.apply sha0 c3b).2.apply sha0 c3a).2.view = some (.String "y") :=
  ⟨by decide, by decide, rfl, rfl, rfl, rfl⟩

/-- C3 (amended): commutativity modulo dependencies holds for ops with
*distinct* `(seq, author)` pairs, but not for equivocations.  For the
register, any two hash-valid or invalid ops whose `(seq, author)` pairs
differ commute on the full state, from every state.  For the list, two
fresh hash-valid inserts addressed to the list with known anchors, fresh
distinct ids, distinct `(seq, author)` pairs and an empty pending queue
produce the same full state in either order: the re-scan walks the same
elements with transported positions and the sibling order decides the
same relative placement.  (The claim as stated also demands agreement for
same-author same-seq equivocations; the counterexample refutes that.) -/
theorem c3_amended (sha : List Char → OpId) :
    (∀ (s : LwwRegisterCrdt) (a b : Op),
        a.seq ≠ b.seq ∨ a.author ≠ b.author →
        ((s.apply sha a).2.apply sha b).2 = ((s.apply sha b).2.apply sha a).2) ∧
    (∀ (s : ListCrdt) (a b : Op) (oa ob : OpId) (pa pb : Nat),
        a.is_valid_hash sha = true → b.is_valid_hash sha = true →
        a.path = join_path s.path (.Index oa) →
        b.path = join_path s.path (.Index ob) →
        a.is_deleted = false → b.is_deleted = false →
        (∀ o ∈ s.ops, ¬ o.id = a.id) → (∀ o ∈ s.ops, ¬ o.id = b.id) →
        ¬ a.id = b.id →
        a.seq ≠ b.seq ∨ a.author ≠ b.author →
        findIdxOp s.ops a.origin = some pa →
        findIdxOp s.ops b.origin = some pb →
        (∀ o ∈ s.ops, (findIdxOp s.ops o.origin).isSome = true) →
        s.message_q = [] →
        ∃ w,
          ((s.apply sha a).map (·.2)).bind (fun t => (t.apply sha b).map (·.2)) = some w ∧
          ((s.apply sha b).map (·.2)).bind (fun t => (t.apply sha a).map (·.2)) = some w) :=
  ⟨fun s a b hab => lww_apply_comm sha s a b hab,
   fun s a b oa ob pa pb hva hvb hpatha hpathb hda hdb hfa hfb hab_id hpair hpa hpb
       horig hmq =>
     list_insert_insert_comm sha s a b oa ob pa pb hva hvb hpatha hpathb hda hdb
       hfa hfb hab_id hpair hpa hpb horig hmq⟩

/-! Concrete inputs for the amended-claim witness. -/

def c3list : ListCrdt := ListCrdt.new (make_author 1) []

def c3iA0 : Op := Op.new sha0 ROOT_ID (make_author 2) 1 false (some (.String "a")) []

def c3iA : Op := { c3iA0 with path := join_path [] (.Index c3iA0.id) }

def c3iB0 : Op := Op.new sha0 ROOT_ID (make_author 2) 2 false (some (.String "bb")) []

def c3iB : Op := { c3iB0 with path := join_path [] (.Index c3iB0.id) }

set_option maxRecDepth 1000000 in
/-- Closed instance of both halves of the amended claim: two register
sets with distinct authors commute on a fresh register, and two root
inserts with distinct seqs commute on a fresh list. -/
theorem c3_amended_witness :
    ((c3r0.apply sha0 c3a).2.apply sha0
        (Op.new sha0 ROOT_ID (make_author 3) 1 false (some (.String "z")) [])).2
      = ((c3r0.apply sha0
          (Op.new sha0 ROOT_ID (make_author 3) 1 false (some (.String "z")) [])).2.apply
            sha0 c3a).2 ∧
    (∃ w,
      ((c3list.apply sha0 c3iA).map (·.2)).bind
          (fun t => (t.apply sha0 c3iB).map (·.2)) = some w ∧
      ((c3list.apply sha0 c3iB).map (·.2)).bind
          (fun t => (t.apply sha0 c3iA).map (·.2)) = some w) := by
  constructor
  · exact (c3_amended sha0).1 c3r0 c3a
      (Op.new sha0 ROOT_ID (make_author 3) 1 false (some (.String "z")) [])
      (Or.inr (by decide))
  · exact (c3_amended sha0).2 c3list c3iA c3iB c3iA0.id c3iB0.id 0 0
      (by decide) (by decide) rfl rfl rfl rfl
      (by decide) (by decide) (by decide) (Or.inl (by decide))
      (by decide) (by decide) (by decide) rfl

end BftCrdt
